import Mathlib

/-!
Verification of the `diff` repository: a JSON-like document diff/patch
library built on a JSONPath-like path codec, a tree-flattening walker,
a differ and a patcher.

The embedding below translates the Python sources
(`src/diff/json_path.py`, `src/diff/diff.py`, `src/diff/patch.py`)
into Lean.  Documents are modelled as an explicit recursive sum type
(`Value`); Python `None` is `Value.null`.  Dicts become association
lists preserving insertion order (Python 3.7+ dict semantics); numbers
are modelled as integers (the claims under study do not involve
cross-subtype numeric equality).  In-place mutation is modelled by
returning the updated tree; exceptions are modelled with `Except`.
Identity-based cycle detection of the walker is dropped: trees in this
embedding are owned values without back-edges, so the visited-identity
set of the source can never fire.  The walker's `sort_keys` option is
not modelled (every call site under study uses the default
`sort_keys=False`).
-/

namespace DiffSpec

/-- A document tree: `null`, booleans, numbers, strings, maps (Python
dicts as insertion-ordered association lists with string keys) and
sequences (Python lists). -/
inductive Value where
  | null : Value
  | bool (b : Bool) : Value
  | int (n : Int) : Value
  | str (s : String) : Value
  | map (entries : List (String × Value)) : Value
  | seq (items : List Value) : Value

theorem sizeOf_lt_of_mem_entries {m : List (String × Value)} {p : String × Value}
    (hp : p ∈ m) : sizeOf p.2 < 1 + sizeOf m := by
  have h1 : sizeOf p < sizeOf m := List.sizeOf_lt_of_mem hp
  obtain ⟨k, v⟩ := p
  simp only [Prod.mk.sizeOf_spec] at *
  omega

theorem sizeOf_lt_of_mem_items {l : List Value} {v : Value}
    (hv : v ∈ l) : sizeOf v < 1 + sizeOf l := by
  have h1 : sizeOf v < sizeOf l := List.sizeOf_lt_of_mem hv
  omega

/-- Structural induction for `Value` exposing membership in the nested
lists. -/
theorem Value.inductionOn {P : Value → Prop}
    (hnull : P .null) (hbool : ∀ b, P (.bool b)) (hint : ∀ n, P (.int n))
    (hstr : ∀ s, P (.str s))
    (hmap : ∀ m, (∀ p ∈ m, P p.2) → P (.map m))
    (hseq : ∀ l, (∀ v ∈ l, P v) → P (.seq l)) : ∀ v, P v
  | .null => hnull
  | .bool b => hbool b
  | .int n => hint n
  | .str s => hstr s
  | .map m => hmap m (fun p hp =>
      have := sizeOf_lt_of_mem_entries hp
      Value.inductionOn hnull hbool hint hstr hmap hseq p.2)
  | .seq l => hseq l (fun v hv =>
      have := sizeOf_lt_of_mem_items hv
      Value.inductionOn hnull hbool hint hstr hmap hseq v)
termination_by v => sizeOf v

mutual

/-- Boolean structural equality on documents (deep equality, exact
type and value: the recommended policy of the specification, adequate
because numbers are modelled as integers). -/
def Value.beq : Value → Value → Bool
  | .null, .null => true
  | .bool a, .bool b => a == b
  | .int a, .int b => a == b
  | .str a, .str b => a == b
  | .map a, .map b => beqEntries a b
  | .seq a, .seq b => beqItems a b
  | _, _ => false

def beqEntries : List (String × Value) → List (String × Value) → Bool
  | [], [] => true
  | (k1, v1) :: r1, (k2, v2) :: r2 => k1 == k2 && Value.beq v1 v2 && beqEntries r1 r2
  | _, _ => false

def beqItems : List Value → List Value → Bool
  | [], [] => true
  | v1 :: r1, v2 :: r2 => Value.beq v1 v2 && beqItems r1 r2
  | _, _ => false

end

instance : BEq Value := ⟨Value.beq⟩

theorem Value.beqEqTrueIff : ∀ a b : Value, Value.beq a b = true ↔ a = b := by
  intro a
  induction a using Value.inductionOn with
  | hnull => intro b; cases b <;> simp [Value.beq]
  | hbool x => intro b; cases b <;> simp [Value.beq]
  | hint x => intro b; cases b <;> simp [Value.beq]
  | hstr x => intro b; cases b <;> simp [Value.beq]
  | hmap m ih =>
    intro b
    cases b <;> simp only [Value.beq] <;> try simp
    case map m2 =>
      induction m generalizing m2 with
      | nil => cases m2 <;> simp [beqEntries]
      | cons p r ihr =>
        obtain ⟨k, v⟩ := p
        cases m2 with
        | nil => simp [beqEntries]
        | cons q r2 =>
          obtain ⟨k2, v2⟩ := q
          have hv := ih (k, v) (by simp)
          have hr := ihr (fun p hp => ih p (by simp [hp])) r2
          simp only [beqEntries, Bool.and_assoc, Bool.and_eq_true, beq_iff_eq, hv, hr]
          constructor
          · rintro ⟨h1, h2, h3⟩; simp_all
          · rintro ⟨h1, h2⟩; simp_all
  | hseq l ih =>
    intro b
    cases b <;> simp only [Value.beq] <;> try simp
    case seq l2 =>
      induction l generalizing l2 with
      | nil => cases l2 <;> simp [beqItems]
      | cons v r ihr =>
        cases l2 with
        | nil => simp [beqItems]
        | cons v2 r2 =>
          have hv := ih v (by simp)
          have hr := ihr (fun x hx => ih x (by simp [hx])) r2
          simp only [beqItems, Bool.and_eq_true, hv, hr]
          simp_all

instance : DecidableEq Value := fun a b =>
  decidable_of_iff (Value.beq a b = true) (Value.beqEqTrueIff a b)

/-- One parsed path segment: a dict key or a list index.
Source: `Token = Union[str, int]` in `json_path.py` / `patch.py`.
Indices produced by the tokenizer are digit runs, hence non-negative;
we use `Nat`. -/
inductive Token where
  | key (k : String) : Token
  | idx (i : Nat) : Token
  deriving DecidableEq, Repr

/-- Error kinds raised by the sources (exception messages are not
modelled): `JsonPathError` (path syntax), `TypeError`, `KeyError`,
`IndexError`. -/
inductive Err where
  | jsonPathError : Err
  | typeError : Err
  | keyError : Err
  | indexError : Err
  deriving DecidableEq, Repr

instance {ε α : Type} [DecidableEq ε] [DecidableEq α] :
    DecidableEq (Except ε α) := fun x y =>
  match x, y with
  | .error a, .error b =>
    if h : a = b then .isTrue (by rw [h])
    else .isFalse (fun hc => h (Except.error.inj hc))
  | .ok a, .ok b =>
    if h : a = b then .isTrue (by rw [h])
    else .isFalse (fun hc => h (Except.ok.inj hc))
  | .error _, .ok _ => .isFalse (fun hc => Except.noConfusion hc)
  | .ok _, .error _ => .isFalse (fun hc => Except.noConfusion hc)

/-- The edit record produced by `diff` and consumed by `patch`.
Source: the `Delta` dataclass in `delta.py` (the `Operation` dataclass
in `operation.py` has the same shape).  `new_value`/`old_value` use
`Value.null` for Python `None`, exactly as the source conflates the
absent value with `None`. -/
structure Delta where
  operation : String
  path : String
  new_value : Value
  old_value : Value
  deriving DecidableEq

/-- Python `dict` lookup (keys are unique in dicts built by the
sources; on an arbitrary association list this finds the first
occurrence). -/
def mapLookup : List (String × Value) → String → Option Value
  | [], _ => none
  | (k', v') :: rest, k => if k' = k then some v' else mapLookup rest k

/-- Python `d[k] = v`: replace in place if the key exists (keeping its
position), otherwise append at the end. -/
def mapSet : List (String × Value) → String → Value → List (String × Value)
  | [], k, v => [(k, v)]
  | (k', v') :: rest, k, v =>
    if k' = k then (k, v) :: rest else (k', v') :: mapSet rest k v

/-- Python `del d[k]` (for a key known to be present; on an arbitrary
list removes the first occurrence). -/
def mapErase : List (String × Value) → String → List (String × Value)
  | [], _ => []
  | (k', v') :: rest, k => if k' = k then rest else (k', v') :: mapErase rest k

/-! ### Path codec: serialization (`json_path.py`) -/

/-- One step of `key.replace("\\", "\\\\")`: the pattern is the single
backslash character, so the replacement acts independently on each
character. -/
def escBackslash (c : Char) : List Char :=
  if c = '\\' then ['\\', '\\'] else [c]

/-- One step of `.replace('"', '\\"')` (applied second in the source). -/
def escQuote (c : Char) : List Char :=
  if c = '"' then ['\\', '"'] else [c]

/-- `_escape_key_for_brackets`: escape a key for bracket notation with
double quotes, i.e. `key.replace("\\", "\\\\").replace('"', '\\"')`.
Both patterns are single characters, so the two sequential `replace`
calls are the two character-wise expansions below. -/
def escapeKeyForBrackets (key : String) : String :=
  String.mk ((key.data.flatMap escBackslash).flatMap escQuote)

/-- A key is rendered in dot notation iff it is non-empty and contains
neither `.` nor `[` (the `use_dot` test of `_join_path`). -/
def useDot (key : String) : Bool :=
  !key.data.isEmpty && !key.data.contains '.' && !key.data.contains '['

/-- `_join_path`: join a base path string with a token. -/
def joinPath (base : String) (token : Token) : String :=
  match token with
  | .idx i => base ++ "[" ++ toString i ++ "]"
  | .key key =>
    if useDot key then
      if base = "" then key
      else if base = "$" then "$." ++ key
      else base ++ "." ++ key
    else
      base ++ "[\"" ++ escapeKeyForBrackets key ++ "\"]"

/-- Serialization of a whole token sequence starting from a base. -/
def joinTokens (base : String) (ts : List Token) : String :=
  ts.foldl joinPath base

/-! ### Path codec: tokenizer (`_tokenize_json_path` in `patch.py`) -/

/-- The body of the quoted-key scanner of `read_bracket_key_or_index`:
consume characters until the closing quote `q`.  On a backslash the
*next* character is appended to the buffer — in the source both the
recognized-escape branch (`esc in [quote, "\\"]`) and the
unknown-escape branch execute the same `buf.append(esc)`, so the
backslash itself is never kept.  Returns the key characters and the
remaining input after the closing quote. -/
def readQuoted (q : Char) : List Char → Except Err (List Char × List Char)
  | [] => .error .jsonPathError
  | c :: rest =>
    if c = '\\' then
      match rest with
      | [] => .error .jsonPathError
      | e :: rest2 =>
        match readQuoted q rest2 with
        | .error err => .error err
        | .ok (buf, rest3) => .ok (e :: buf, rest3)
    else if c = q then .ok ([], rest)
    else
      match readQuoted q rest with
      | .error err => .error err
      | .ok (buf, rest3) => .ok (c :: buf, rest3)

/-- Digit run to a natural number, as Python `int` on a digit string. -/
def digitsToNat (ds : List Char) : Nat :=
  ds.foldl (fun n c => n * 10 + (c.toNat - '0'.toNat)) 0

/-- `read_bracket_key_or_index`, receiving the input *after* the
opening `[`: either a quoted key (quote `'` or `"`) followed by `]`,
or a non-empty digit run followed by `]`.  Returns the token and the
remaining input after the `]`. -/
def readBracket (cs : List Char) : Except Err (Token × List Char) :=
  match cs with
  | [] => .error .jsonPathError
  | q :: rest =>
    if q = '\'' ∨ q = '"' then
      match readQuoted q rest with
      | .error err => .error err
      | .ok (buf, rest2) =>
        match rest2 with
        | [] => .error .jsonPathError
        | c :: rest3 =>
          if c = ']' then .ok (.key (String.mk buf), rest3)
          else .error .jsonPathError
    else
      let digits := cs.takeWhile Char.isDigit
      if digits.isEmpty then .error .jsonPathError
      else
        match cs.dropWhile Char.isDigit with
        | [] => .error .jsonPathError
        | c :: rest3 =>
          if c = ']' then .ok (.idx (digitsToNat digits), rest3)
          else .error .jsonPathError

theorem readQuoted_length {q : Char} :
    ∀ (cs : List Char) {buf rest : List Char},
      readQuoted q cs = .ok (buf, rest) → rest.length < cs.length
  | [], _, _, h => by simp [readQuoted] at h
  | c :: cs, buf, rest, h => by
    rw [readQuoted.eq_def] at h
    dsimp only at h
    by_cases hbs : c = '\\'
    · rw [if_pos hbs] at h
      cases cs with
      | nil => simp at h
      | cons e cs2 =>
        dsimp only at h
        cases hrec : readQuoted q cs2 with
        | error err => simp [hrec] at h
        | ok pr =>
          obtain ⟨b2, r2⟩ := pr
          simp only [hrec, Except.ok.injEq, Prod.mk.injEq] at h
          obtain ⟨h1, h2⟩ := h
          subst h2
          have := readQuoted_length cs2 hrec
          simp only [List.length_cons]
          omega
    · rw [if_neg hbs] at h
      by_cases hcq : c = q
      · rw [if_pos hcq] at h
        simp only [Except.ok.injEq, Prod.mk.injEq] at h
        obtain ⟨h1, h2⟩ := h
        subst h2
        simp
      · rw [if_neg hcq] at h
        cases hrec : readQuoted q cs with
        | error err => simp [hrec] at h
        | ok pr =>
          obtain ⟨b2, r2⟩ := pr
          simp only [hrec, Except.ok.injEq, Prod.mk.injEq] at h
          obtain ⟨h1, h2⟩ := h
          subst h2
          have := readQuoted_length cs hrec
          simp only [List.length_cons]
          omega
termination_by cs => cs.length

theorem readBracket_length {cs : List Char} {t : Token} {rest : List Char}
    (h : readBracket cs = .ok (t, rest)) : rest.length < cs.length := by
  match cs with
  | [] => simp [readBracket] at h
  | q :: cs2 =>
    rw [readBracket.eq_def] at h
    dsimp only at h
    split at h
    · cases hrq : readQuoted q cs2 with
      | error err => simp [hrq] at h
      | ok pr =>
        obtain ⟨buf, rest2⟩ := pr
        simp only [hrq] at h
        have hlen := readQuoted_length cs2 hrq
        cases rest2 with
        | nil => simp at h
        | cons c rest3 =>
          dsimp only at h
          split at h
          · simp only [Except.ok.injEq, Prod.mk.injEq] at h
            obtain ⟨h1, h2⟩ := h
            subst h2
            simp only [List.length_cons] at hlen ⊢
            omega
          · simp at h
    · split at h
      · simp at h
      · split at h
        · simp at h
        · rename_i c rest3 heq
          split at h
          · simp only [Except.ok.injEq, Prod.mk.injEq] at h
            obtain ⟨h1, h2⟩ := h
            subst h2
            have hdl : (c :: rest3).length ≤ (q :: cs2).length := by
              rw [← heq]
              exact (List.dropWhile_suffix _).length_le
            simp only [List.length_cons] at hdl ⊢
            omega
          · simp at h

/-- A character that continues a simple (dot-notation) key: anything
except `.` and `[` (`read_simple_key` scans `path[j] not in ".["`). -/
def isSimpleKeyChar (c : Char) : Bool :=
  c ≠ '.' && c ≠ '['

/-- The main loop of `_tokenize_json_path` (after the optional leading
`$`/`$.` has been skipped): repeatedly skip `.`, read a bracket
segment, or read a simple key. -/
def tokLoop (cs : List Char) : Except Err (List Token) :=
  match cs with
  | [] => .ok []
  | c :: rest =>
    if c = '.' then tokLoop rest
    else if hbr : c = '[' then
      match hres : readBracket rest with
      | .error err => .error err
      | .ok (t, rest2) =>
        match tokLoop rest2 with
        | .error err => .error err
        | .ok ts => .ok (t :: ts)
    else
      let key := (c :: rest).takeWhile isSimpleKeyChar
      match tokLoop ((c :: rest).dropWhile isSimpleKeyChar) with
      | .error err => .error err
      | .ok ts => .ok (.key (String.mk key) :: ts)
termination_by cs.length
decreasing_by
  · simp
  · have := readBracket_length hres
    simp only [List.length_cons]
    omega
  · rename_i hdot
    rw [List.dropWhile_cons_of_pos (by simp [isSimpleKeyChar, hdot, hbr])]
    have := List.IsSuffix.length_le (List.dropWhile_suffix (p := isSimpleKeyChar) (l := rest2))
    simp only [List.length_cons]
    omega

theorem tokLoop_nil : tokLoop [] = .ok [] := by
  rw [tokLoop.eq_def]

theorem tokLoop_dot (rest : List Char) : tokLoop ('.' :: rest) = tokLoop rest := by
  rw [tokLoop.eq_def]
  simp

theorem tokLoop_bracket_ok (rest : List Char) {t : Token} {rest2 : List Char}
    (h : readBracket rest = .ok (t, rest2)) :
    tokLoop ('[' :: rest) =
      match tokLoop rest2 with
      | .error err => .error err
      | .ok ts => .ok (t :: ts) := by
  rw [tokLoop.eq_def]
  simp only []
  rw [if_neg (by decide : ¬(('[' : Char) = '.'))]
  simp only [dite_true]
  split
  · rename_i err herr
    rw [herr] at h
    exact absurd h (by simp)
  · rename_i t2 rest22 hok
    rw [hok] at h
    simp only [Except.ok.injEq, Prod.mk.injEq] at h
    obtain ⟨h1, h2⟩ := h
    subst h1
    subst h2
    rfl

theorem tokLoop_simple (c : Char) (rest : List Char) (h1 : c ≠ '.')
    (h2 : c ≠ '[') :
    tokLoop (c :: rest) =
      match tokLoop ((c :: rest).dropWhile isSimpleKeyChar) with
      | .error err => .error err
      | .ok ts =>
        .ok (.key (String.mk ((c :: rest).takeWhile isSimpleKeyChar)) :: ts) := by
  rw [tokLoop.eq_def]
  simp [h1, h2]

/-- Skip an optional leading `$` and, after a `$`, an optional `.`
(`if path[i] == "$": i += 1; if i < n and path[i] == ".": i += 1`). -/
def stripDollar (cs : List Char) : List Char :=
  match cs with
  | [] => []
  | c :: rest =>
    if c = '$' then
      match rest with
      | [] => rest
      | c2 :: rest2 => if c2 = '.' then rest2 else rest
    else cs

/-- `_tokenize_json_path`: reject the empty string, skip an optional
leading `$` and an optional `.` right after it, then run the loop. -/
def tokenizeV (path : String) : Except Err (List Token) :=
  if path = "" then .error .jsonPathError
  else tokLoop (stripDollar path.data)

/-! ### Tree walker (`iter_json_paths` and friends, `json_path.py`)

The walker is parametrized by `include_root` (`ir`), `leaves_only`
(`lo`), `include_containers` (`ic`) and `max_depth` (`md`).
`include_values` is always modelled (pairs are produced; the
strings-only view drops the second components), and `sort_keys` is not
modelled (all call sites under study use the default `False`).
The identity-based cycle guard never fires on owned trees and is
dropped. -/

/-- `path or ("$" if include_root else "")`: the root-path fixup the
source applies before emitting or joining. -/
def pathOr (ir : Bool) (path : String) : String :=
  if path = "" then (if ir then "$" else "") else path

/-- `True` when the recursion must stop: `max_depth is not None and
depth > max_depth`. -/
def depthExceeded (md : Option Nat) (depth : Nat) : Bool :=
  match md with
  | none => false
  | some d => depth > d

mutual

/-- The inner `rec` of `iter_json_paths`. -/
def recV (ir lo ic : Bool) (md : Option Nat) (current : Value) (path : String)
    (depth : Nat) : List (String × Value) :=
  if depthExceeded md depth then []
  else
    match current with
    | .map m =>
      (if ic && !lo then [(pathOr ir path, current)] else []) ++
        (if m.isEmpty && ic && lo then [(pathOr ir path, current)]
         else recEntries ir lo ic md m (pathOr ir path) depth)
    | .seq l =>
      (if ic && !lo then [(pathOr ir path, current)] else []) ++
        (if l.isEmpty && ic && lo then [(pathOr ir path, current)]
         else recItems ir lo ic md l (pathOr ir path) 0 depth)
    | _ => [(pathOr ir path, current)]

/-- The `for k, v in items` loop of the dict branch (`base` is the
already-fixed-up parent path). -/
def recEntries (ir lo ic : Bool) (md : Option Nat)
    (entries : List (String × Value)) (base : String) (depth : Nat) :
    List (String × Value) :=
  match entries with
  | [] => []
  | (k, v) :: rest =>
    (match v with
     | .map _ =>
       (if ic && !lo then [(joinPath base (.key k), v)] else []) ++
         recV ir lo ic md v (joinPath base (.key k)) (depth + 1)
     | .seq _ =>
       (if ic && !lo then [(joinPath base (.key k), v)] else []) ++
         recV ir lo ic md v (joinPath base (.key k)) (depth + 1)
     | _ => [(joinPath base (.key k), v)]) ++
      recEntries ir lo ic md rest base depth

/-- The `for idx, v in enumerate(current)` loop of the list branch. -/
def recItems (ir lo ic : Bool) (md : Option Nat) (items : List Value)
    (base : String) (i : Nat) (depth : Nat) : List (String × Value) :=
  match items with
  | [] => []
  | v :: rest =>
    (match v with
     | .map _ =>
       (if ic && !lo then [(joinPath base (.idx i), v)] else []) ++
         recV ir lo ic md v (joinPath base (.idx i)) (depth + 1)
     | .seq _ =>
       (if ic && !lo then [(joinPath base (.idx i), v)] else []) ++
         recV ir lo ic md v (joinPath base (.idx i)) (depth + 1)
     | _ => [(joinPath base (.idx i), v)]) ++
      recItems ir lo ic md rest base (i + 1) depth

end

/-- `iter_json_paths` with `include_values=True`: the optional extra
root emission, then the recursion started at the root path (`"$"` when
`include_root` else `""`) and depth 0. -/
def iterJsonPaths (ir lo ic : Bool) (md : Option Nat) (obj : Value) :
    List (String × Value) :=
  (if ir && ic && !lo then [("$", obj)] else []) ++
    recV ir lo ic md obj (if ir then "$" else "") 0

/-- `list_json_paths`: only the path strings. -/
def listJsonPaths (ir lo ic : Bool) (md : Option Nat) (obj : Value) :
    List String :=
  (iterJsonPaths ir lo ic md obj).map (·.1)

/-- `paths_with_values` (with its `exclude_none` filter). -/
def pathsWithValues (ir lo ic : Bool) (md : Option Nat) (excludeNone : Bool)
    (obj : Value) : List (String × Value) :=
  let pairs := iterJsonPaths ir lo ic md obj
  if excludeNone then pairs.filter (fun pv => pv.2 ≠ .null) else pairs

/-- `path_value_map`: a Python dict comprehension over the pairs — later
entries with the same key silently overwrite earlier ones (insertion
position of the first occurrence is kept, as for Python dicts). -/
def pathValueMap (ir lo ic : Bool) (md : Option Nat) (excludeNone : Bool)
    (obj : Value) : List (String × Value) :=
  (pathsWithValues ir lo ic md excludeNone obj).foldl
    (fun acc pv => mapSet acc pv.1 pv.2) []

/-! ### Differ (`diff.py`) -/

/-- `diff(new, old)`: flatten both documents to path→value maps
(`include_root=True`; `leaves_only` `True`/`False` respectively, both
with `include_containers=False`), then emit deleted, added and
modified Deltas, in that order.  The source iterates Python *sets*
(`old.keys() - new.keys()`, `new.keys() - old.keys()`,
`new.keys() & old.keys()`) whose order is unspecified; the embedding
fixes the iteration order to the insertion order of the respective
path map.  `None` stands in for the absent old/new value, as in the
source. -/
def diffV (newD oldD : Value) : List Delta :=
  let npm := pathValueMap true true false none false newD
  let opm := pathValueMap true false false none false oldD
  let deleted := (opm.map (·.1)).filter (fun k => (mapLookup npm k).isNone)
  let added := (npm.map (·.1)).filter (fun k => (mapLookup opm k).isNone)
  let shared := (npm.map (·.1)).filter (fun k => (mapLookup opm k).isSome)
  (deleted.map (fun k =>
      ⟨"deleted", k, .null, (mapLookup opm k).getD .null⟩)) ++
    (added.map (fun k =>
      ⟨"added", k, (mapLookup npm k).getD .null, .null⟩)) ++
    ((shared.filter (fun k =>
        (mapLookup opm k).getD .null ≠ (mapLookup npm k).getD .null)).map
      (fun k =>
        ⟨"modified", k, (mapLookup npm k).getD .null,
          (mapLookup opm k).getD .null⟩))

/-! ### Patcher primitives (`patch.py`) -/

/-- `[] if isinstance(next_tok, int) else {}`: the fresh container
synthesized for a missing intermediate, chosen by the *next* token. -/
def emptyFor (nextTok : Token) : Value :=
  match nextTok with
  | .idx _ => .seq []
  | .key _ => .map []

/-- The walking loop of `set_by_json_path`, one token at a time
(`t` is the current token, `ts` the remaining ones; `ts = []` means
`t` is the last token).  In-place mutation of the source is modelled
by rebuilding the spine on the way back up. -/
def setGo (current : Value) (t : Token) (ts : List Token) (v : Value)
    (createMissing : Bool) : Except Err Value :=
  match t with
  | .key k =>
    match current with
    | .map m =>
      match ts with
      | [] => .ok (.map (mapSet m k v))
      | t2 :: ts2 =>
        match
          (match mapLookup m k with
           | none =>
             if createMissing then .ok (emptyFor t2)
             else .error Err.keyError
           | some child =>
             if child = .null then
               if createMissing then .ok (emptyFor t2)
               else .error Err.keyError
             else .ok child : Except Err Value)
        with
        | .error err => .error err
        | .ok child =>
          match setGo child t2 ts2 v createMissing with
          | .error err => .error err
          | .ok child2 => .ok (.map (mapSet m k child2))
    | _ => .error .typeError
  | .idx i =>
    match current with
    | .seq l =>
      match
        (if i ≥ l.length then
           if createMissing then .ok (l ++ List.replicate (i + 1 - l.length) .null)
           else .error Err.indexError
         else .ok l : Except Err (List Value))
      with
      | .error err => .error err
      | .ok l2 =>
        match ts with
        | [] => .ok (.seq (l2.set i v))
        | t2 :: ts2 =>
          match
            (if l2.getD i .null = .null then
               if createMissing then .ok (emptyFor t2)
               else .error Err.keyError
             else .ok (l2.getD i .null) : Except Err Value)
          with
          | .error err => .error err
          | .ok child =>
            match setGo child t2 ts2 v createMissing with
            | .error err => .error err
            | .ok child2 => .ok (.seq (l2.set i child2))
    | _ => .error .typeError

/-- `set_by_json_path(doc, path, value, create_missing)`: tokenize,
reject a root-only path, then walk/assign.  (The negative-index check
of the source is unreachable: tokenized indices are digit runs.) -/
def setByJsonPath (doc : Value) (path : String) (v : Value)
    (createMissing : Bool) : Except Err Value :=
  match tokenizeV path with
  | .error err => .error err
  | .ok [] => .error .jsonPathError
  | .ok (t :: ts) => setGo doc t ts v createMissing

/-- `get_by_json_path`: walk the token list, raising `KeyError` for a
missing/dict-mismatched key step and `TypeError`/`IndexError` for list
steps. -/
def getGo (current : Value) : List Token → Except Err Value
  | [] => .ok current
  | .key k :: ts =>
    match current with
    | .map m =>
      match mapLookup m k with
      | none => .error .keyError
      | some child => getGo child ts
    | _ => .error .keyError
  | .idx i :: ts =>
    match current with
    | .seq l =>
      if h : i < l.length then getGo l[i] ts
      else .error .indexError
    | _ => .error .typeError

/-- `get_by_json_path(doc, path)`. -/
def getByJsonPath (doc : Value) (path : String) : Except Err Value :=
  match tokenizeV path with
  | .error err => .error err
  | .ok ts => getGo doc ts

/-- `_is_empty_container`. -/
def isEmptyContainer (v : Value) : Bool :=
  match v with
  | .map m => m.isEmpty
  | .seq l => l.isEmpty
  | _ => false

/-- `_delete_in_parent(parent, tok, remove_from_list)` for a map
parent: `del parent[tok]` when present. -/
def deleteInParentMap (m : List (String × Value)) (k : String) :
    List (String × Value) :=
  if (mapLookup m k).isSome then mapErase m k else m

/-- `_delete_in_parent` for a list parent: physical removal when
`remove_from_list`, else null-out (for an in-range index). -/
def deleteInParentSeq (l : List Value) (i : Nat) (removeFromList : Bool) :
    List Value :=
  if i < l.length then
    if removeFromList then l.eraseIdx i else l.set i .null
  else l

/-- The walking/deleting core of `delete_by_json_path`.  `t` is the
current token and `ts` the remaining ones (`ts = []` means `t` is the
final leaf token).  The boolean of the result records whether a
deletion was actually performed (false for the `missing_ok` no-op);
with `prune_empty`, a reassembly step whose updated child has become
an empty container removes the child from its parent exactly as the
source's upward pruning loop does (the walk stops by itself at the
first non-empty ancestor, which then contains that ancestor's
non-empty child). -/
def delGo (current : Value) (t : Token) (ts : List Token)
    (missingOk removeFromList pruneEmpty : Bool) :
    Except Err (Value × Bool) :=
  match ts with
  | [] =>
    match t with
    | .key k =>
      match current with
      | .map m =>
        if (mapLookup m k).isSome then .ok (.map (mapErase m k), true)
        else if missingOk then .ok (current, false)
        else .error .keyError
      | _ =>
        if missingOk then .ok (current, false) else .error .typeError
    | .idx i =>
      match current with
      | .seq l =>
        if i < l.length then
          .ok (.seq (if removeFromList then l.eraseIdx i else l.set i .null),
            true)
        else if missingOk then .ok (current, false)
        else .error .indexError
      | _ =>
        if missingOk then .ok (current, false) else .error .typeError
  | t2 :: ts2 =>
    match t with
    | .key k =>
      match current with
      | .map m =>
        match mapLookup m k with
        | none =>
          if missingOk then .ok (current, false) else .error .keyError
        | some child =>
          if child = .null then
            if missingOk then .ok (current, false) else .error .keyError
          else
            match delGo child t2 ts2 missingOk removeFromList pruneEmpty with
            | .error err => .error err
            | .ok (child2, deleted) =>
              if pruneEmpty && deleted && isEmptyContainer child2 then
                .ok (.map (deleteInParentMap m k), deleted)
              else .ok (.map (mapSet m k child2), deleted)
      | _ =>
        if missingOk then .ok (current, false) else .error .typeError
    | .idx i =>
      match current with
      | .seq l =>
        if h : i < l.length then
          if l[i] = .null then
            if missingOk then .ok (current, false) else .error .indexError
          else
            match delGo l[i] t2 ts2 missingOk removeFromList pruneEmpty with
            | .error err => .error err
            | .ok (child2, deleted) =>
              if pruneEmpty && deleted && isEmptyContainer child2 then
                .ok (.seq (deleteInParentSeq l i removeFromList), deleted)
              else .ok (.seq (l.set i child2), deleted)
        else if missingOk then .ok (current, false)
        else .error .indexError
      | _ =>
        if missingOk then .ok (current, false) else .error .typeError

/-- `delete_by_json_path(doc, path, missing_ok, remove_from_list,
prune_empty)`: tokenize (syntax errors are raised regardless of
`missing_ok`), reject a root-only path, then walk/delete/prune. -/
def deleteByJsonPath (doc : Value) (path : String)
    (missingOk removeFromList pruneEmpty : Bool) : Except Err Value :=
  match tokenizeV path with
  | .error err => .error err
  | .ok [] => .error .jsonPathError
  | .ok (t :: ts) =>
    match delGo doc t ts missingOk removeFromList pruneEmpty with
    | .error err => .error err
    | .ok (doc2, _) => .ok doc2

/-- The walking/popping core of `pop_by_json_path`: like `delGo` but
returning the removed value as well.  The traversal of the source
classifies errors differently from delete (`KeyError` for any dict
step problem including a non-dict node, `IndexError` for non-list or
out-of-range, `KeyError` for a null list element); the leaf step
matches delete's classification.  A `missing_ok` no-op returns `none`
and leaves the document unchanged. -/
def popGo (current : Value) (t : Token) (ts : List Token)
    (missingOk removeFromList pruneEmpty : Bool) :
    Except Err (Option Value × Value × Bool) :=
  match ts with
  | [] =>
    match t with
    | .key k =>
      match current with
      | .map m =>
        match mapLookup m k with
        | some removed => .ok (some removed, .map (mapErase m k), true)
        | none =>
          if missingOk then .ok (none, current, false) else .error .keyError
      | _ =>
        if missingOk then .ok (none, current, false) else .error .typeError
    | .idx i =>
      match current with
      | .seq l =>
        if h : i < l.length then
          .ok (some l[i],
            .seq (if removeFromList then l.eraseIdx i else l.set i .null),
            true)
        else if missingOk then .ok (none, current, false)
        else .error .indexError
      | _ =>
        if missingOk then .ok (none, current, false) else .error .typeError
  | t2 :: ts2 =>
    match t with
    | .key k =>
      match current with
      | .map m =>
        match mapLookup m k with
        | none =>
          if missingOk then .ok (none, current, false) else .error .keyError
        | some child =>
          if child = .null then
            if missingOk then .ok (none, current, false) else .error .keyError
          else
            match popGo child t2 ts2 missingOk removeFromList pruneEmpty with
            | .error err => .error err
            | .ok (removed, child2, deleted) =>
              if pruneEmpty && deleted && isEmptyContainer child2 then
                .ok (removed, .map (deleteInParentMap m k), deleted)
              else .ok (removed, .map (mapSet m k child2), deleted)
      | _ =>
        if missingOk then .ok (none, current, false) else .error .keyError
    | .idx i =>
      match current with
      | .seq l =>
        if h : i < l.length then
          if l[i] = .null then
            if missingOk then .ok (none, current, false) else .error .keyError
          else
            match popGo l[i] t2 ts2 missingOk removeFromList pruneEmpty with
            | .error err => .error err
            | .ok (removed, child2, deleted) =>
              if pruneEmpty && deleted && isEmptyContainer child2 then
                .ok (removed, .seq (deleteInParentSeq l i removeFromList),
                  deleted)
              else .ok (removed, .seq (l.set i child2), deleted)
        else if missingOk then .ok (none, current, false)
        else .error .indexError
      | _ =>
        if missingOk then .ok (none, current, false) else .error .indexError

/-- `pop_by_json_path`: returns the removed value (`none` for the
`missing_ok` no-op) together with the updated document (the source
mutates the document in place and returns only the removed value). -/
def popByJsonPath (doc : Value) (path : String)
    (missingOk removeFromList pruneEmpty : Bool) :
    Except Err (Option Value × Value) :=
  match tokenizeV path with
  | .error err => .error err
  | .ok [] => .error .jsonPathError
  | .ok (t :: ts) =>
    match popGo doc t ts missingOk removeFromList pruneEmpty with
    | .error err => .error err
    | .ok (removed, doc2, _) => .ok (removed, doc2)

/-! ### Patcher (`patch` in `patch.py`) -/

/-- One iteration of the `for op in operations` loop of `patch`:
deletions use `prune_empty=True, remove_from_list=True` (and the
default `missing_ok=False`); everything else is a set with the default
`create_missing=True`. -/
def patchStep (acc : Value) (op : Delta) : Except Err Value :=
  if op.operation = "deleted" then
    deleteByJsonPath acc op.path false true true
  else
    setByJsonPath acc op.path op.new_value true

/-- `patch(base, operations)`: `copy.deepcopy(base)` (the identity on
immutable tree values) followed by the operation loop; any exception
escapes to the caller. -/
def patchV (base : Value) (ops : List Delta) : Except Err Value :=
  ops.foldlM patchStep base

/-! ### Lemmas: the two flag combinations used by `diff` agree

With `include_containers=False` every occurrence of `leaves_only` in
the walker is inside a conjunction with `include_containers`, so the
two projections of `diff` produce identical output. -/

theorem recEntries_lo_irrel (ir : Bool) (md : Option Nat) (lo1 lo2 : Bool) :
    ∀ m : List (String × Value),
      (∀ p ∈ m, ∀ lo1 lo2 : Bool, ∀ path depth,
        recV ir lo1 false md p.2 path depth =
          recV ir lo2 false md p.2 path depth) →
      ∀ base depth,
        recEntries ir lo1 false md m base depth =
          recEntries ir lo2 false md m base depth := by
  intro m hm base depth
  induction m with
  | nil => simp [recEntries]
  | cons p rest ihr =>
    obtain ⟨k, v⟩ := p
    have hv := hm (k, v) (by simp)
    have hrest := ihr (fun p hp => hm p (by simp [hp]))
    simp only [recEntries, Bool.false_and, Bool.and_false, if_false]
    cases v <;>
      simp only [List.nil_append, hrest] <;>
      rw [hv lo1 lo2]

theorem recItems_lo_irrel (ir : Bool) (md : Option Nat) (lo1 lo2 : Bool) :
    ∀ l : List Value,
      (∀ v ∈ l, ∀ lo1 lo2 : Bool, ∀ path depth,
        recV ir lo1 false md v path depth =
          recV ir lo2 false md v path depth) →
      ∀ base i depth,
        recItems ir lo1 false md l base i depth =
          recItems ir lo2 false md l base i depth := by
  intro l hl base i depth
  induction l generalizing i with
  | nil => simp [recItems]
  | cons v rest ihr =>
    have hv := hl v (by simp)
    have hrest := ihr (fun v hv2 => hl v (by simp [hv2]))
    simp only [recItems, Bool.false_and, Bool.and_false, if_false]
    cases v <;>
      simp only [List.nil_append, hrest] <;>
      rw [hv lo1 lo2]

theorem recV_lo_irrel (ir : Bool) (md : Option Nat) :
    ∀ (v : Value) (lo1 lo2 : Bool) (path : String) (depth : Nat),
      recV ir lo1 false md v path depth = recV ir lo2 false md v path depth := by
  intro v
  induction v using Value.inductionOn with
  | hnull => intro lo1 lo2 path depth; simp [recV]
  | hbool b => intro lo1 lo2 path depth; simp [recV]
  | hint n => intro lo1 lo2 path depth; simp [recV]
  | hstr s => intro lo1 lo2 path depth; simp [recV]
  | hmap m ih =>
    intro lo1 lo2 path depth
    simp only [recV, Bool.false_and, Bool.and_false, if_false, List.nil_append]
    rw [recEntries_lo_irrel ir md lo1 lo2 m ih]
  | hseq l ih =>
    intro lo1 lo2 path depth
    simp only [recV, Bool.false_and, Bool.and_false, if_false, List.nil_append]
    rw [recItems_lo_irrel ir md lo1 lo2 l ih]

theorem pathValueMap_lo_irrel (ir : Bool) (md : Option Nat) (en : Bool)
    (v : Value) (lo1 lo2 : Bool) :
    pathValueMap ir lo1 false md en v = pathValueMap ir lo2 false md en v := by
  simp only [pathValueMap, pathsWithValues, iterJsonPaths, Bool.and_false,
    Bool.false_and, if_false, List.nil_append]
  rw [recV_lo_irrel ir md v lo1 lo2]

theorem mapLookup_isSome_of_mem_keys :
    ∀ (m : List (String × Value)) (k : String),
      k ∈ m.map (·.1) → (mapLookup m k).isSome := by
  intro m k hk
  induction m with
  | nil => simp at hk
  | cons p rest ihr =>
    obtain ⟨k', v'⟩ := p
    simp only [List.map_cons, List.mem_cons] at hk
    by_cases h : k' = k
    · simp [mapLookup, h]
    · simp only [mapLookup, if_neg h]
      exact ihr (hk.resolve_left (fun he => h he.symm))

/-- C2: Self-diff is empty: for every Document `D`, `diff(D, D)`
returns the empty edit list. -/
theorem diffSelfEmpty (d : Value) : diffV d d = [] := by
  have hpm : pathValueMap true false false none false d =
      pathValueMap true true false none false d :=
    pathValueMap_lo_irrel true none false d false true
  simp only [diffV, hpm]
  have hdel :
      (((pathValueMap true true false none false d).map (·.1)).filter
        (fun k =>
          (mapLookup (pathValueMap true true false none false d) k).isNone)) =
        [] := by
    rw [List.filter_eq_nil_iff]
    intro k hk
    have := mapLookup_isSome_of_mem_keys _ k hk
    simp only [Option.isNone_iff_eq_none]
    intro hnone
    rw [hnone] at this
    simp at this
  have hmod :
      (((pathValueMap true true false none false d).map (·.1)).filter
          (fun k =>
            (mapLookup (pathValueMap true true false none false d) k).isSome)).filter
        (fun k =>
          (mapLookup (pathValueMap true true false none false d) k).getD .null ≠
            (mapLookup (pathValueMap true true false none false d) k).getD .null) =
        [] := by
    rw [List.filter_eq_nil_iff]
    intro k hk
    simp
  rw [hdel, hmod]
  simp

/-- Helper: concrete tokenization of the path `$.a.b` (the tokenizer
is defined by well-founded recursion, so concrete runs are evaluated
with its equations rather than by kernel reduction). -/
theorem tokenize_dollar_a_b :
    tokenizeV ("$.a.b") = .ok [.key ("a"), .key ("b")] := by
  simp [tokenizeV, stripDollar, tokLoop, readBracket, readQuoted,
    isSimpleKeyChar]

/-- C1: the round-trip law `patch(A, diff(new=B, old=A)) == B` FAILS on
the code: for `A = {}` and `B` a map holding one empty map, every
container of `B` is empty, the leaf projection of `B` is empty, `diff`
returns no edits at all, and `patch` returns `A` — which differs from
`B`.  This theorem evaluates the code at that failing input. -/
theorem roundTripFailsOnEmptyContainer :
    diffV (.map [("a", .map [])]) (.map []) = [] ∧
    patchV (.map []) (diffV (.map [("a", .map [])]) (.map [])) =
      .ok (.map []) ∧
    Value.map [] ≠ Value.map [("a", .map [])] := by
  refine ⟨by decide, ?_, by decide⟩
  have h : diffV (.map [("a", .map [])]) (.map []) = [] := by decide
  rw [h]
  rfl

/-- C3: deleting the sole leaf of a container with pruning removes the
now-empty container from its parent and the cascade repeats upward,
stopping at the first non-empty ancestor and never removing the root:
(1) for any two-level singleton chain the whole chain is pruned and the
(empty) root map survives; (2) a non-empty sibling at the top stops the
cascade there; (3) concretely, for `old` a map `a ↦ (b ↦ 1)` and
`new = {}`, `diff` yields exactly one Deleted Delta at `$.a.b` and
`patch` (which prunes) returns the empty root map. -/
theorem deletePruneUpward :
    (∀ (a b : String) (v : Value),
      delGo (.map [(a, .map [(b, v)])]) (.key a) [.key b] false true true =
        .ok (.map [], true)) ∧
    (∀ (a b d : String) (v w : Value),
      delGo (.map [(a, .map [(b, v)]), (d, w)]) (.key a) [.key b]
          false true true =
        .ok (.map [(d, w)], true)) ∧
    diffV (.map []) (.map [("a", .map [("b", .int 1)])]) =
      [⟨"deleted", "$.a.b", .null, .int 1⟩] ∧
    patchV (.map [("a", .map [("b", .int 1)])])
        (diffV (.map []) (.map [("a", .map [("b", .int 1)])])) =
      .ok (.map []) := by
  refine ⟨?_, ?_, by decide, ?_⟩
  · intro a b v
    simp [delGo, mapLookup, mapErase, deleteInParentMap, isEmptyContainer]
  · intro a b d v w
    simp [delGo, mapLookup, mapErase, deleteInParentMap, isEmptyContainer]
  · have h : diffV (.map []) (.map [("a", .map [("b", .int 1)])]) =
        [⟨"deleted", "$.a.b", .null, .int 1⟩] := by decide
    rw [h]
    simp only [patchV, List.foldlM, patchStep, deleteByJsonPath,
      tokenize_dollar_a_b]
    decide

/-! ### Path round-trip lemmas (claims C4/C5) -/

/-- Scanning the escaped form of a key up to the closing quote
recovers the key exactly: every `\` and `"` of the original is
preceded by a backslash in the escaped form, and the scanner maps each
backslash-pair to its second character. -/
theorem readQuoted_escape_roundtrip :
    ∀ cs rest : List Char,
      readQuoted '"'
          (((cs.flatMap escBackslash).flatMap escQuote) ++ '"' :: rest) =
        .ok (cs, rest) := by
  intro cs
  induction cs with
  | nil =>
    intro rest
    simp only [List.flatMap_nil, List.nil_append]
    rw [readQuoted.eq_def]
    simp
  | cons c cs ih =>
    intro rest
    by_cases hbs : c = '\\'
    · subst hbs
      simp only [List.flatMap_cons, List.flatMap_append]
      simp [escBackslash, escQuote]
      rw [readQuoted.eq_def]
      simp [ih]
    · by_cases hq : c = '"'
      · subst hq
        simp only [List.flatMap_cons, List.flatMap_append]
        simp [escBackslash, escQuote, hbs]
        rw [readQuoted.eq_def]
        simp [ih]
      · simp only [List.flatMap_cons, List.flatMap_append]
        simp [escBackslash, escQuote, hbs, hq]
        rw [readQuoted.eq_def]
        simp [ih, hbs, hq]

/-- `read_bracket_key_or_index` on a double-quoted escaped key followed
by `]` yields exactly that key. -/
theorem readBracket_escaped (cs rest : List Char) :
    readBracket
        ('"' :: (((cs.flatMap escBackslash).flatMap escQuote) ++
          '"' :: ']' :: rest)) =
      .ok (.key (String.mk cs), rest) := by
  rw [readBracket.eq_def]
  simp [readQuoted_escape_roundtrip cs (']' :: rest)]

theorem contains_eq_true_iff_mem (l : List Char) (c : Char) :
    l.contains c = true ↔ c ∈ l := by
  simp [List.contains_iff_exists_mem_beq]

/-- Parsing the bracket-quoted serialized form of any key recovers
exactly that key as the single token. -/
theorem tokenize_bracket_form (K : String) :
    tokenizeV ("$" ++ "[\"" ++ escapeKeyForBrackets K ++ "\"]") =
      .ok [.key K] := by
  have h1 : ("$" : String).data = ['$'] := rfl
  have h2 : ("[\"" : String).data = ['[', '"'] := rfl
  have h3 : ("\"]" : String).data = ['"', ']'] := rfl
  have hdata : ("$" ++ "[\"" ++ escapeKeyForBrackets K ++ "\"]").data =
      '$' :: '[' :: '"' ::
        (((K.data.flatMap escBackslash).flatMap escQuote) ++
          '"' :: ']' :: []) := by
    simp [String.data_append, escapeKeyForBrackets, h1, h2, h3]
  have hne : ("$" ++ "[\"" ++ escapeKeyForBrackets K ++ "\"]") ≠ "" := by
    intro h
    have hd := congrArg String.data h
    rw [hdata] at hd
    exact List.noConfusion hd
  simp only [tokenizeV, if_neg hne]
  rw [hdata]
  have hsd : stripDollar ('$' :: '[' :: '"' ::
      (((K.data.flatMap escBackslash).flatMap escQuote) ++
        '"' :: ']' :: [])) =
      '[' :: '"' ::
        (((K.data.flatMap escBackslash).flatMap escQuote) ++
          '"' :: ']' :: []) := by
    simp [stripDollar]
  rw [hsd, tokLoop_bracket_ok _ (readBracket_escaped K.data []), tokLoop_nil]

/-- Parsing the dot form of a simple key yields that key as the single
token. -/
theorem tokenize_dot_form (K : String) (hne : K.data ≠ [])
    (hsimple : ∀ c ∈ K.data, isSimpleKeyChar c = true) :
    tokenizeV ("$." ++ K) = .ok [.key K] := by
  have h1 : ("$." : String).data = ['$', '.'] := rfl
  have hdata : ("$." ++ K).data = '$' :: '.' :: K.data := by
    simp [String.data_append, h1]
  have hne2 : ("$." ++ K) ≠ "" := by
    intro h
    have hd := congrArg String.data h
    rw [hdata] at hd
    exact List.noConfusion hd
  simp only [tokenizeV, if_neg hne2]
  rw [hdata]
  have hsd : stripDollar ('$' :: '.' :: K.data) = K.data := by
    simp [stripDollar]
  rw [hsd]
  cases hK : K.data with
  | nil => exact absurd hK hne
  | cons c rest =>
    have hc := hsimple c (by rw [hK]; simp)
    simp only [isSimpleKeyChar, Bool.and_eq_true, decide_eq_true_eq] at hc
    have hall : ∀ x ∈ c :: rest, isSimpleKeyChar x = true := by
      rw [← hK]
      exact hsimple
    rw [tokLoop_simple c rest hc.1 hc.2,
      List.dropWhile_eq_nil_iff.mpr hall, tokLoop_nil,
      List.takeWhile_eq_self_iff.mpr hall, ← hK]

/-- C4: Path round-trip.  (1) For every key containing `.` or `[`,
the serializer picks the bracket-quoted form and parsing it yields
exactly the single Key token (so re-serializing recovers the key).
(2) For every simple key (non-empty, containing neither `.` nor `[`)
the serialized dot form and the bracket-quoted form tokenize to the
same single Key token, i.e. address the identical location. -/
theorem pathRoundTrip :
    (∀ K : String, ('.' ∈ K.data ∨ '[' ∈ K.data) →
      tokenizeV (joinPath ("$") (.key K)) = .ok [.key K]) ∧
    (∀ K : String, K ≠ "" → '.' ∉ K.data → '[' ∉ K.data →
      tokenizeV (joinPath ("$") (.key K)) = .ok [.key K] ∧
      tokenizeV ("$" ++ "[\"" ++ escapeKeyForBrackets K ++ "\"]") =
        .ok [.key K] ∧
      tokenizeV (joinPath ("$") (.key K)) =
        tokenizeV ("$" ++ "[\"" ++ escapeKeyForBrackets K ++ "\"]")) := by
  constructor
  · intro K h
    have hud : useDot K = false := by
      simp only [useDot, Bool.and_eq_false_iff]
      rcases h with h | h
      · left; right
        simp [contains_eq_true_iff_mem, h]
      · right
        simp [contains_eq_true_iff_mem, h]
    simp only [joinPath, hud, Bool.false_eq_true, if_false]
    exact tokenize_bracket_form K
  · intro K h1 h2 h3
    have hne : K.data ≠ [] := by
      intro h
      exact h1 (String.ext h)
    have hud : useDot K = true := by
      simp only [useDot, Bool.and_eq_true, Bool.not_eq_true']
      refine ⟨⟨?_, ?_⟩, ?_⟩
      · simp [List.isEmpty_iff, hne]
      · simp [Bool.eq_false_iff]
        intro hc
        exact h2 hc
      · simp [Bool.eq_false_iff]
        intro hc
        exact h3 hc
    have hsimple : ∀ c ∈ K.data, isSimpleKeyChar c = true := by
      intro c hc
      simp only [isSimpleKeyChar, Bool.and_eq_true, decide_eq_true_eq]
      exact ⟨fun hd => h2 (hd ▸ hc), fun hb => h3 (hb ▸ hc)⟩
    have hdot : tokenizeV ("$." ++ K) = .ok [.key K] :=
      tokenize_dot_form K hne hsimple
    have hjoin : joinPath ("$") (.key K) = "$." ++ K := by
      simp [joinPath, hud]
    rw [hjoin, hdot, tokenize_bracket_form K]
    exact ⟨rfl, rfl, rfl⟩

/-- Witness for C4 at the concrete keys `"a.b"` (bracket case) and
`"k"` (simple case). -/
theorem pathRoundTrip_witness :
    tokenizeV (joinPath ("$") (.key ("a.b"))) = .ok [.key ("a.b")] ∧
    tokenizeV (joinPath ("$") (.key ("k"))) =
      tokenizeV ("$" ++ "[\"" ++ escapeKeyForBrackets ("k") ++ "\"]") :=
  ⟨pathRoundTrip.1 ("a.b") (by decide),
    (pathRoundTrip.2 ("k") (by decide) (by decide) (by decide)).2.2⟩

/-- C5 counterexample: the claim that an unrecognized backslash escape
preserves BOTH characters fails: parsing `["a\nb"]` (literally
backslash-`n` between `a` and `b`) yields the key `anb` — the
backslash is dropped — instead of the claimed `a\nb`. -/
theorem escapeHandlingDropsBackslash :
    tokenizeV ("[\"a\\nb\"]") = .ok [.key ("anb")] ∧
    ("anb" : String) ≠ "a\\nb" := by
  constructor
  · simp [tokenizeV, stripDollar, tokLoop, readBracket, readQuoted,
      isSimpleKeyChar]
  · decide

/-- C5 amended: inside a quoted bracket key the parser consumes EVERY
backslash as an escape and keeps only the following character — in the
source both the recognized-escape branch (`\"`, `\'`, `\\`) and the
unknown-escape branch execute the same `buf.append(esc)`, so for any
other backslash-prefixed character the backslash is dropped and the
character kept. -/
theorem escapeConsumesBackslashKeepsChar
    (q e : Char) (cs buf rest : List Char)
    (h : readQuoted q cs = .ok (buf, rest)) :
    readQuoted q ('\\' :: e :: cs) = .ok (e :: buf, rest) := by
  rw [readQuoted.eq_def]
  simp [h]

/-- Witness for the amended C5 at the concrete input `\n"` scanned
with quote `"`. -/
theorem escapeConsumesBackslashKeepsChar_witness :
    readQuoted '"' ['\\', 'n', '"'] = .ok (['n'], []) :=
  escapeConsumesBackslashKeepsChar '"' 'n' ['"'] [] []
    (by rw [readQuoted.eq_def]; simp)

/-! ### Depth bound of the walker (claim C6) -/

theorem joinTokens_nil (base : String) : joinTokens base [] = base := rfl

theorem joinTokens_cons (base : String) (t : Token) (ts : List Token) :
    joinTokens base (t :: ts) = joinTokens (joinPath base t) ts := rfl

theorem joinPath_ne_empty (base : String) (t : Token) :
    joinPath base t ≠ "" := by
  intro h
  cases t with
  | idx i =>
    simp only [joinPath] at h
    have hd := congrArg String.data h
    simp only [String.data_append] at hd
    simp at hd
  | key k =>
    simp only [joinPath] at h
    split at h
    · rename_i hud
      split at h
      · rw [h] at hud
        exact absurd hud (by decide)
      · split at h
        · have hd := congrArg String.data h
          simp only [String.data_append] at hd
          simp at hd
        · have hd := congrArg String.data h
          simp only [String.data_append] at hd
          simp at hd
    · have hd := congrArg String.data h
      simp only [String.data_append] at hd
      simp at hd

theorem pathOr_of_ne_empty (ir : Bool) {s : String} (h : s ≠ "") :
    pathOr ir s = s := by
  simp [pathOr, h]

theorem not_depthExceeded_le {d depth : Nat}
    (h : ¬depthExceeded (some d) depth = true) : depth ≤ d := by
  simp only [depthExceeded, decide_eq_true_eq] at h
  omega

theorem recEntries_depth_bound (ir lo ic : Bool) (d : Nat) :
    ∀ (entries : List (String × Value)) (base : String) (depth : Nat),
      depth ≤ d →
      (∀ p ∈ entries, ∀ path depth2,
        ∀ pv ∈ recV ir lo ic (some d) p.2 path depth2,
          ∃ ts : List Token, pv.1 = joinTokens (pathOr ir path) ts ∧
            ts.length + depth2 ≤ d + 1) →
      ∀ pv ∈ recEntries ir lo ic (some d) entries base depth,
        ∃ ts : List Token, pv.1 = joinTokens base ts ∧
          ts.length + depth ≤ d + 1 := by
  intro entries
  induction entries with
  | nil =>
    intro base depth hd hmem pv hpv
    simp [recEntries] at hpv
  | cons p rest ihr =>
    intro base depth hd hmem pv hpv
    obtain ⟨k, v⟩ := p
    simp only [recEntries, List.mem_append] at hpv
    have hsingle : pv ∈ [(joinPath base (Token.key k), v)] →
        ∃ ts : List Token, pv.1 = joinTokens base ts ∧
          ts.length + depth ≤ d + 1 := by
      intro hin
      simp only [List.mem_singleton] at hin
      refine ⟨[Token.key k], ?_, ?_⟩
      · rw [hin]; rfl
      · simp only [List.length_singleton]
        omega
    have hrec : ∀ w : Value, (k, w) ∈ (k, v) :: rest →
        pv ∈ recV ir lo ic (some d) w (joinPath base (Token.key k))
          (depth + 1) →
        ∃ ts : List Token, pv.1 = joinTokens base ts ∧
          ts.length + depth ≤ d + 1 := by
      intro w hmemw hin
      obtain ⟨ts2, hts2, hlen2⟩ :=
        hmem (k, w) hmemw (joinPath base (Token.key k)) (depth + 1) pv hin
      rw [pathOr_of_ne_empty ir (joinPath_ne_empty base (Token.key k))] at hts2
      refine ⟨Token.key k :: ts2, ?_, ?_⟩
      · rw [joinTokens_cons, hts2]
      · simp only [List.length_cons]
        omega
    rcases hpv with hpv | hpv
    · cases v with
      | map m2 =>
        simp only [List.mem_append] at hpv
        rcases hpv with hpv | hpv
        · split at hpv
          · exact hsingle hpv
          · simp at hpv
        · exact hrec (.map m2) (by simp) hpv
      | seq l2 =>
        simp only [List.mem_append] at hpv
        rcases hpv with hpv | hpv
        · split at hpv
          · exact hsingle hpv
          · simp at hpv
        · exact hrec (.seq l2) (by simp) hpv
      | null => exact hsingle hpv
      | bool b => exact hsingle hpv
      | int n => exact hsingle hpv
      | str s => exact hsingle hpv
    · exact ihr base depth hd
        (fun p hp => hmem p (List.mem_cons_of_mem _ hp)) pv hpv

theorem recItems_depth_bound (ir lo ic : Bool) (d : Nat) :
    ∀ (items : List Value) (base : String) (i depth : Nat),
      depth ≤ d →
      (∀ v ∈ items, ∀ path depth2,
        ∀ pv ∈ recV ir lo ic (some d) v path depth2,
          ∃ ts : List Token, pv.1 = joinTokens (pathOr ir path) ts ∧
            ts.length + depth2 ≤ d + 1) →
      ∀ pv ∈ recItems ir lo ic (some d) items base i depth,
        ∃ ts : List Token, pv.1 = joinTokens base ts ∧
          ts.length + depth ≤ d + 1 := by
  intro items
  induction items with
  | nil =>
    intro base i depth hd hmem pv hpv
    simp [recItems] at hpv
  | cons v rest ihr =>
    intro base i depth hd hmem pv hpv
    simp only [recItems, List.mem_append] at hpv
    have hsingle : pv ∈ [(joinPath base (Token.idx i), v)] →
        ∃ ts : List Token, pv.1 = joinTokens base ts ∧
          ts.length + depth ≤ d + 1 := by
      intro hin
      simp only [List.mem_singleton] at hin
      refine ⟨[Token.idx i], ?_, ?_⟩
      · rw [hin]; rfl
      · simp only [List.length_singleton]
        omega
    have hrec : ∀ w : Value, w ∈ v :: rest →
        pv ∈ recV ir lo ic (some d) w (joinPath base (Token.idx i))
          (depth + 1) →
        ∃ ts : List Token, pv.1 = joinTokens base ts ∧
          ts.length + depth ≤ d + 1 := by
      intro w hmemw hin
      obtain ⟨ts2, hts2, hlen2⟩ :=
        hmem w hmemw (joinPath base (Token.idx i)) (depth + 1) pv hin
      rw [pathOr_of_ne_empty ir (joinPath_ne_empty base (Token.idx i))] at hts2
      refine ⟨Token.idx i :: ts2, ?_, ?_⟩
      · rw [joinTokens_cons, hts2]
      · simp only [List.length_cons]
        omega
    rcases hpv with hpv | hpv
    · cases v with
      | map m2 =>
        simp only [List.mem_append] at hpv
        rcases hpv with hpv | hpv
        · split at hpv
          · exact hsingle hpv
          · simp at hpv
        · exact hrec (.map m2) (by simp) hpv
      | seq l2 =>
        simp only [List.mem_append] at hpv
        rcases hpv with hpv | hpv
        · split at hpv
          · exact hsingle hpv
          · simp at hpv
        · exact hrec (.seq l2) (by simp) hpv
      | null => exact hsingle hpv
      | bool b => exact hsingle hpv
      | int n => exact hsingle hpv
      | str s => exact hsingle hpv
    · exact ihr base i.succ depth hd
        (fun w hw => hmem w (List.mem_cons_of_mem _ hw)) pv hpv

theorem recV_depth_bound (ir lo ic : Bool) (d : Nat) :
    ∀ (v : Value) (path : String) (depth : Nat),
      ∀ pv ∈ recV ir lo ic (some d) v path depth,
        ∃ ts : List Token, pv.1 = joinTokens (pathOr ir path) ts ∧
          ts.length + depth ≤ d + 1 := by
  intro v
  induction v using Value.inductionOn with
  | hnull =>
    intro path depth pv hpv
    simp only [recV] at hpv
    split at hpv
    · simp at hpv
    · rename_i hde
      have hd := not_depthExceeded_le hde
      simp only [List.mem_singleton] at hpv
      exact ⟨[], by rw [hpv]; rfl, by simpa using Nat.le_succ_of_le hd⟩
  | hbool b =>
    intro path depth pv hpv
    simp only [recV] at hpv
    split at hpv
    · simp at hpv
    · rename_i hde
      have hd := not_depthExceeded_le hde
      simp only [List.mem_singleton] at hpv
      exact ⟨[], by rw [hpv]; rfl, by simpa using Nat.le_succ_of_le hd⟩
  | hint n =>
    intro path depth pv hpv
    simp only [recV] at hpv
    split at hpv
    · simp at hpv
    · rename_i hde
      have hd := not_depthExceeded_le hde
      simp only [List.mem_singleton] at hpv
      exact ⟨[], by rw [hpv]; rfl, by simpa using Nat.le_succ_of_le hd⟩
  | hstr s =>
    intro path depth pv hpv
    simp only [recV] at hpv
    split at hpv
    · simp at hpv
    · rename_i hde
      have hd := not_depthExceeded_le hde
      simp only [List.mem_singleton] at hpv
      exact ⟨[], by rw [hpv]; rfl, by simpa using Nat.le_succ_of_le hd⟩
  | hmap m ih =>
    intro path depth pv hpv
    simp only [recV] at hpv
    split at hpv
    · simp at hpv
    · rename_i hde
      have hd := not_depthExceeded_le hde
      simp only [List.mem_append] at hpv
      have hself : pv = (pathOr ir path, Value.map m) →
          ∃ ts : List Token, pv.1 = joinTokens (pathOr ir path) ts ∧
            ts.length + depth ≤ d + 1 := by
        intro hin
        exact ⟨[], by rw [hin]; rfl, by simpa using Nat.le_succ_of_le hd⟩
      rcases hpv with hpv | hpv
      · split at hpv
        · exact hself (by simpa using hpv)
        · simp at hpv
      · split at hpv
        · exact hself (by simpa using hpv)
        · exact recEntries_depth_bound ir lo ic d m (pathOr ir path) depth hd
            ih pv hpv
  | hseq l ih =>
    intro path depth pv hpv
    simp only [recV] at hpv
    split at hpv
    · simp at hpv
    · rename_i hde
      have hd := not_depthExceeded_le hde
      simp only [List.mem_append] at hpv
      have hself : pv = (pathOr ir path, Value.seq l) →
          ∃ ts : List Token, pv.1 = joinTokens (pathOr ir path) ts ∧
            ts.length + depth ≤ d + 1 := by
        intro hin
        exact ⟨[], by rw [hin]; rfl, by simpa using Nat.le_succ_of_le hd⟩
      rcases hpv with hpv | hpv
      · split at hpv
        · exact hself (by simpa using hpv)
        · simp at hpv
      · split at hpv
        · exact hself (by simpa using hpv)
        · exact recItems_depth_bound ir lo ic d l (pathOr ir path) 0 depth hd
            ih pv hpv

theorem mapSet_keys (m : List (String × Value)) (k : String) (v : Value) :
    ∀ k2 ∈ (mapSet m k v).map (·.1), k2 = k ∨ k2 ∈ m.map (·.1) := by
  induction m with
  | nil =>
    intro k2 hk2
    simp [mapSet] at hk2
    exact Or.inl hk2
  | cons p rest ihr =>
    obtain ⟨k', v'⟩ := p
    intro k2 hk2
    simp only [mapSet] at hk2
    split at hk2
    · simp only [List.map_cons, List.mem_cons] at hk2
      rcases hk2 with hk2 | hk2
      · exact Or.inl hk2
      · exact Or.inr (by simp [hk2])
    · simp only [List.map_cons, List.mem_cons] at hk2
      rcases hk2 with hk2 | hk2
      · exact Or.inr (by simp [hk2])
      · rcases ihr k2 hk2 with h | h
        · exact Or.inl h
        · exact Or.inr (by simp [h])

theorem mem_keys_foldl_mapSet :
    ∀ (pairs acc : List (String × Value)) (pv : String × Value),
      pv ∈ pairs.foldl (fun a q => mapSet a q.1 q.2) acc →
      pv.1 ∈ acc.map (·.1) ∨ pv.1 ∈ pairs.map (·.1) := by
  intro pairs
  induction pairs with
  | nil =>
    intro acc pv hpv
    simp only [List.foldl_nil] at hpv
    exact Or.inl (List.mem_map.mpr ⟨pv, hpv, rfl⟩)
  | cons q rest ihr =>
    intro acc pv hpv
    simp only [List.foldl_cons] at hpv
    rcases ihr (mapSet acc q.1 q.2) pv hpv with h | h
    · rcases mapSet_keys acc q.1 q.2 pv.1 h with h2 | h2
      · exact Or.inr (by simp [h2])
      · exact Or.inl h2
    · exact Or.inr (by simp [h])

/-- C6 counterexample: the walker with `max_depth = 0` on the map
`a ↦ 1` still emits the leaf `$.a`, whose path has one token, i.e. the
node sits at depth 1 > 0: children of a node at the depth cap are
still yielded inside the parent's recursion step. -/
theorem maxDepthOffByOne :
    listJsonPaths true true false (some 0) (.map [("a", .int 1)]) =
      ["$.a"] ∧
    tokenizeV ("$.a") = .ok [.key ("a")] ∧
    ("$.a" : String) ≠ "$" := by
  refine ⟨by decide, ?_, by decide⟩
  simp [tokenizeV, stripDollar, tokLoop, readBracket, readQuoted,
    isSimpleKeyChar]

/-- C6 amended: with `max_depth = d` every path produced by the walker
(`iter_json_paths` and its `list`/`pairs`/`map` views) is the
serialization of a token sequence of length at most `d + 1`: nodes
strictly deeper than `d + 1` are never visited (the cap stops descent
*into* nodes deeper than `d`, but children of a depth-`d` node are
still emitted). -/
theorem maxDepthVisitBound :
    (∀ (ir lo ic : Bool) (d : Nat) (obj : Value) (pv : String × Value),
      pv ∈ iterJsonPaths ir lo ic (some d) obj →
      ∃ ts : List Token,
        pv.1 = joinTokens (if ir then "$" else "") ts ∧
          ts.length ≤ d + 1) ∧
    (∀ (ir lo ic : Bool) (d : Nat) (obj : Value) (p : String),
      p ∈ listJsonPaths ir lo ic (some d) obj →
      ∃ ts : List Token,
        p = joinTokens (if ir then "$" else "") ts ∧ ts.length ≤ d + 1) ∧
    (∀ (ir lo ic : Bool) (d : Nat) (en : Bool) (obj : Value)
        (pv : String × Value),
      pv ∈ pathsWithValues ir lo ic (some d) en obj →
      ∃ ts : List Token,
        pv.1 = joinTokens (if ir then "$" else "") ts ∧
          ts.length ≤ d + 1) ∧
    (∀ (ir lo ic : Bool) (d : Nat) (en : Bool) (obj : Value)
        (pv : String × Value),
      pv ∈ pathValueMap ir lo ic (some d) en obj →
      ∃ ts : List Token,
        pv.1 = joinTokens (if ir then "$" else "") ts ∧
          ts.length ≤ d + 1) := by
  have hiter : ∀ (ir lo ic : Bool) (d : Nat) (obj : Value)
      (pv : String × Value),
      pv ∈ iterJsonPaths ir lo ic (some d) obj →
      ∃ ts : List Token,
        pv.1 = joinTokens (if ir then "$" else "") ts ∧
          ts.length ≤ d + 1 := by
    intro ir lo ic d obj pv hpv
    simp only [iterJsonPaths, List.mem_append] at hpv
    rcases hpv with hpv | hpv
    · split at hpv
      · rename_i hcond
        simp only [Bool.and_eq_true, Bool.not_eq_true'] at hcond
        simp only [List.mem_singleton] at hpv
        refine ⟨[], ?_, by simp⟩
        rw [hpv, hcond.1.1]
        rfl
      · simp at hpv
    · obtain ⟨ts, hts, hlen⟩ :=
        recV_depth_bound ir lo ic d obj (if ir then "$" else "") 0 pv hpv
      refine ⟨ts, ?_, by omega⟩
      rw [hts]
      cases ir with
      | true => rfl
      | false => rfl
  refine ⟨hiter, ?_, ?_, ?_⟩
  · intro ir lo ic d obj p hp
    simp only [listJsonPaths, List.mem_map] at hp
    obtain ⟨pv, hpv, hp1⟩ := hp
    obtain ⟨ts, hts, hlen⟩ := hiter ir lo ic d obj pv hpv
    exact ⟨ts, by rw [← hp1, hts], hlen⟩
  · intro ir lo ic d en obj pv hpv
    simp only [pathsWithValues] at hpv
    have hpv2 : pv ∈ iterJsonPaths ir lo ic (some d) obj := by
      cases en with
      | true =>
        simp only [if_true] at hpv
        exact List.mem_of_mem_filter hpv
      | false =>
        simpa using hpv
    exact hiter ir lo ic d obj pv hpv2
  · intro ir lo ic d en obj pv hpv
    simp only [pathValueMap] at hpv
    have hk := mem_keys_foldl_mapSet _ [] pv hpv
    simp only [List.map_nil, List.not_mem_nil, false_or] at hk
    obtain ⟨qv, hqv, hq1⟩ := List.mem_map.mp hk
    simp only [pathsWithValues] at hqv
    have hqv2 : qv ∈ iterJsonPaths ir lo ic (some d) obj := by
      cases en with
      | true =>
        simp only [if_true] at hqv
        exact List.mem_of_mem_filter hqv
      | false =>
        simpa using hqv
    obtain ⟨ts, hts, hlen⟩ := hiter ir lo ic d obj qv hqv2
    exact ⟨ts, by rw [← hq1, hts], hlen⟩

/-- Witness for the amended C6: on the map `a ↦ 1` with `max_depth=0`
the sole produced path `$.a` is the serialization of a one-token
sequence. -/
theorem maxDepthVisitBound_witness :
    ∃ ts : List Token,
      ("$.a" : String) = joinTokens ("$") ts ∧ ts.length ≤ 0 + 1 :=
  maxDepthVisitBound.2.1 true true false 0 (.map [("a", .int 1)])
    ("$.a") (by decide)

/-! ### `missing_ok` suppression (claim C7) -/

theorem list_set_getElem_self {α : Type} (l : List α) (i : Nat)
    (h : i < l.length) : l.set i l[i] = l := by
  apply List.ext_getElem
  · simp
  · intro n h1 h2
    simp only [List.getElem_set]
    split
    · rename_i he
      subst he
      rfl
    · rfl

theorem mapSet_lookup_self :
    ∀ (m : List (String × Value)) (k : String) (v : Value),
      mapLookup m k = some v → mapSet m k v = m := by
  intro m
  induction m with
  | nil => intro k v h; simp [mapLookup] at h
  | cons p rest ihr =>
    obtain ⟨k', v'⟩ := p
    intro k v h
    simp only [mapLookup] at h
    simp only [mapSet]
    by_cases hk : k' = k
    · rw [if_pos hk] at h
      rw [if_pos hk, hk, (Option.some.inj h)]
    · rw [if_neg hk] at h
      rw [if_neg hk, ihr k v h]

/-- `True` exactly on non-error results. -/
def isOkE {ε α : Type} (e : Except ε α) : Bool :=
  match e with
  | .ok _ => true
  | .error _ => false

theorem isOkE_iff {ε α : Type} (e : Except ε α) :
    isOkE e = true ↔ ∃ r, e = .ok r := by
  cases e <;> simp [isOkE]

/-- With `missing_ok=True` the delete walk never raises. -/
theorem delGo_missingOk_ok :
    ∀ (ts : List Token) (t : Token) (current : Value) (rl pe : Bool),
      isOkE (delGo current t ts true rl pe) = true := by
  intro ts
  induction ts with
  | nil =>
    intro t current rl pe
    cases t with
    | key k =>
      cases current with
      | map m =>
        simp only [delGo]
        split <;> simp [isOkE]
      | null => simp [delGo, isOkE]
      | bool b => simp [delGo, isOkE]
      | int n => simp [delGo, isOkE]
      | str s => simp [delGo, isOkE]
      | seq l => simp [delGo, isOkE]
    | idx i =>
      cases current with
      | seq l =>
        simp only [delGo]
        split <;> simp [isOkE]
      | null => simp [delGo, isOkE]
      | bool b => simp [delGo, isOkE]
      | int n => simp [delGo, isOkE]
      | str s => simp [delGo, isOkE]
      | map m => simp [delGo, isOkE]
  | cons t2 ts2 ih =>
    intro t current rl pe
    cases t with
    | key k =>
      cases current with
      | map m =>
        simp only [delGo]
        cases hl : mapLookup m k with
        | none => simp [isOkE]
        | some child =>
          dsimp only
          by_cases hnull : child = .null
          · simp [hnull, isOkE]
          · rw [if_neg hnull]
            have hrec := ih t2 child rl pe
            rw [isOkE_iff] at hrec
            obtain ⟨r, hr⟩ := hrec
            obtain ⟨c2, dl⟩ := r
            rw [hr]
            dsimp only
            split <;> simp [isOkE]
      | null => simp [delGo, isOkE]
      | bool b => simp [delGo, isOkE]
      | int n => simp [delGo, isOkE]
      | str s => simp [delGo, isOkE]
      | seq l => simp [delGo, isOkE]
    | idx i =>
      cases current with
      | seq l =>
        simp only [delGo]
        split
        · rename_i h
          by_cases hnull : l[i] = Value.null
          · simp [hnull, isOkE]
          · rw [if_neg hnull]
            have hrec := ih t2 (l[i]) rl pe
            rw [isOkE_iff] at hrec
            obtain ⟨r, hr⟩ := hrec
            obtain ⟨c2, dl⟩ := r
            rw [hr]
            dsimp only
            split <;> simp [isOkE]
        · simp [isOkE]
      | null => simp [delGo, isOkE]
      | bool b => simp [delGo, isOkE]
      | int n => simp [delGo, isOkE]
      | str s => simp [delGo, isOkE]
      | map m => simp [delGo, isOkE]

/-- If the delete walk raises with `missing_ok=False`, then with
`missing_ok=True` it is a no-op: the document is returned unchanged
and no deletion is recorded. -/
theorem delGo_noop :
    ∀ (ts : List Token) (t : Token) (current : Value) (rl pe : Bool) (e : Err),
      delGo current t ts false rl pe = .error e →
      delGo current t ts true rl pe = .ok (current, false) := by
  intro ts
  induction ts with
  | nil =>
    intro t current rl pe e herr
    cases t with
    | key k =>
      cases current with
      | map m =>
        simp only [delGo] at herr ⊢
        split at herr
        · exact absurd herr (by simp)
        · rename_i hns
          rw [if_neg hns]
          simp
      | null => simp [delGo]
      | bool b => simp [delGo]
      | int n => simp [delGo]
      | str s => simp [delGo]
      | seq l => simp [delGo]
    | idx i =>
      cases current with
      | seq l =>
        simp only [delGo] at herr ⊢
        split at herr
        · exact absurd herr (by simp)
        · rename_i hns
          rw [if_neg hns]
          simp
      | null => simp [delGo]
      | bool b => simp [delGo]
      | int n => simp [delGo]
      | str s => simp [delGo]
      | map m => simp [delGo]
  | cons t2 ts2 ih =>
    intro t current rl pe e herr
    cases t with
    | key k =>
      cases current with
      | map m =>
        simp only [delGo] at herr ⊢
        cases hl : mapLookup m k with
        | none => simp
        | some child =>
          rw [hl] at herr
          dsimp only at herr ⊢
          by_cases hnull : child = .null
          · rw [if_pos hnull]
            simp
          · rw [if_neg hnull] at herr ⊢
            cases hrec : delGo child t2 ts2 false rl pe with
            | error e2 =>
              have hih := ih t2 child rl pe e2 hrec
              rw [hih]
              dsimp only
              simp only [Bool.and_false, Bool.false_and, Bool.false_eq_true,
                if_false]
              rw [mapSet_lookup_self m k child hl]
            | ok r =>
              rw [hrec] at herr
              obtain ⟨c2, dl⟩ := r
              dsimp only at herr
              split at herr <;> exact absurd herr (by simp)
      | null => simp [delGo]
      | bool b => simp [delGo]
      | int n => simp [delGo]
      | str s => simp [delGo]
      | seq l => simp [delGo]
    | idx i =>
      cases current with
      | seq l =>
        simp only [delGo] at herr ⊢
        split at herr
        · rename_i h
          rw [dif_pos h]
          by_cases hnull : l[i] = Value.null
          · rw [if_pos hnull] at herr ⊢
            simp
          · rw [if_neg hnull] at herr ⊢
            cases hrec : delGo (l[i]) t2 ts2 false rl pe with
            | error e2 =>
              have hih := ih t2 (l[i]) rl pe e2 hrec
              rw [hih]
              dsimp only
              simp only [Bool.and_false, Bool.false_and, Bool.false_eq_true,
                if_false]
              rw [list_set_getElem_self l i h]
            | ok r =>
              rw [hrec] at herr
              obtain ⟨c2, dl⟩ := r
              dsimp only at herr
              split at herr <;> exact absurd herr (by simp)
        · rename_i h
          rw [dif_neg h]
          simp
      | null => simp [delGo]
      | bool b => simp [delGo]
      | int n => simp [delGo]
      | str s => simp [delGo]
      | map m => simp [delGo]

/-- With `missing_ok=True` the pop walk never raises. -/
theorem popGo_missingOk_ok :
    ∀ (ts : List Token) (t : Token) (current : Value) (rl pe : Bool),
      isOkE (popGo current t ts true rl pe) = true := by
  intro ts
  induction ts with
  | nil =>
    intro t current rl pe
    cases t with
    | key k =>
      cases current with
      | map m =>
        simp only [popGo]
        cases mapLookup m k <;> simp [isOkE]
      | null => simp [popGo, isOkE]
      | bool b => simp [popGo, isOkE]
      | int n => simp [popGo, isOkE]
      | str s => simp [popGo, isOkE]
      | seq l => simp [popGo, isOkE]
    | idx i =>
      cases current with
      | seq l =>
        simp only [popGo]
        split <;> simp [isOkE]
      | null => simp [popGo, isOkE]
      | bool b => simp [popGo, isOkE]
      | int n => simp [popGo, isOkE]
      | str s => simp [popGo, isOkE]
      | map m => simp [popGo, isOkE]
  | cons t2 ts2 ih =>
    intro t current rl pe
    cases t with
    | key k =>
      cases current with
      | map m =>
        simp only [popGo]
        cases hl : mapLookup m k with
        | none => simp [isOkE]
        | some child =>
          dsimp only
          by_cases hnull : child = .null
          · simp [hnull, isOkE]
          · rw [if_neg hnull]
            have hrec := ih t2 child rl pe
            rw [isOkE_iff] at hrec
            obtain ⟨r, hr⟩ := hrec
            obtain ⟨rm, c2, dl⟩ := r
            rw [hr]
            dsimp only
            split <;> simp [isOkE]
      | null => simp [popGo, isOkE]
      | bool b => simp [popGo, isOkE]
      | int n => simp [popGo, isOkE]
      | str s => simp [popGo, isOkE]
      | seq l => simp [popGo, isOkE]
    | idx i =>
      cases current with
      | seq l =>
        simp only [popGo]
        split
        · rename_i h
          by_cases hnull : l[i] = Value.null
          · simp [hnull, isOkE]
          · rw [if_neg hnull]
            have hrec := ih t2 (l[i]) rl pe
            rw [isOkE_iff] at hrec
            obtain ⟨r, hr⟩ := hrec
            obtain ⟨rm, c2, dl⟩ := r
            rw [hr]
            dsimp only
            split <;> simp [isOkE]
        · simp [isOkE]
      | null => simp [popGo, isOkE]
      | bool b => simp [popGo, isOkE]
      | int n => simp [popGo, isOkE]
      | str s => simp [popGo, isOkE]
      | map m => simp [popGo, isOkE]

/-- If the pop walk raises with `missing_ok=False`, then with
`missing_ok=True` it is a no-op returning the absent value and the
unchanged document. -/
theorem popGo_noop :
    ∀ (ts : List Token) (t : Token) (current : Value) (rl pe : Bool) (e : Err),
      popGo current t ts false rl pe = .error e →
      popGo current t ts true rl pe = .ok (none, current, false) := by
  intro ts
  induction ts with
  | nil =>
    intro t current rl pe e herr
    cases t with
    | key k =>
      cases current with
      | map m =>
        simp only [popGo] at herr ⊢
        cases hl : mapLookup m k with
        | none => simp
        | some child =>
          rw [hl] at herr
          exact absurd herr (by simp)
      | null => simp [popGo]
      | bool b => simp [popGo]
      | int n => simp [popGo]
      | str s => simp [popGo]
      | seq l => simp [popGo]
    | idx i =>
      cases current with
      | seq l =>
        simp only [popGo] at herr ⊢
        split at herr
        · exact absurd herr (by simp)
        · rename_i hns
          rw [dif_neg hns]
          simp
      | null => simp [popGo]
      | bool b => simp [popGo]
      | int n => simp [popGo]
      | str s => simp [popGo]
      | map m => simp [popGo]
  | cons t2 ts2 ih =>
    intro t current rl pe e herr
    cases t with
    | key k =>
      cases current with
      | map m =>
        simp only [popGo] at herr ⊢
        cases hl : mapLookup m k with
        | none => simp
        | some child =>
          rw [hl] at herr
          dsimp only at herr ⊢
          by_cases hnull : child = .null
          · rw [if_pos hnull]
            simp
          · rw [if_neg hnull] at herr ⊢
            cases hrec : popGo child t2 ts2 false rl pe with
            | error e2 =>
              have hih := ih t2 child rl pe e2 hrec
              rw [hih]
              dsimp only
              simp only [Bool.and_false, Bool.false_and, Bool.false_eq_true,
                if_false]
              rw [mapSet_lookup_self m k child hl]
            | ok r =>
              rw [hrec] at herr
              obtain ⟨rm, c2, dl⟩ := r
              dsimp only at herr
              split at herr <;> exact absurd herr (by simp)
      | null => simp [popGo]
      | bool b => simp [popGo]
      | int n => simp [popGo]
      | str s => simp [popGo]
      | seq l => simp [popGo]
    | idx i =>
      cases current with
      | seq l =>
        simp only [popGo] at herr ⊢
        split at herr
        · rename_i h
          rw [dif_pos h]
          by_cases hnull : l[i] = Value.null
          · rw [if_pos hnull] at herr ⊢
            simp
          · rw [if_neg hnull] at herr ⊢
            cases hrec : popGo (l[i]) t2 ts2 false rl pe with
            | error e2 =>
              have hih := ih t2 (l[i]) rl pe e2 hrec
              rw [hih]
              dsimp only
              simp only [Bool.and_false, Bool.false_and, Bool.false_eq_true,
                if_false]
              rw [list_set_getElem_self l i h]
            | ok r =>
              rw [hrec] at herr
              obtain ⟨rm, c2, dl⟩ := r
              dsimp only at herr
              split at herr <;> exact absurd herr (by simp)
        · rename_i h
          rw [dif_neg h]
          simp
      | null => simp [popGo]
      | bool b => simp [popGo]
      | int n => simp [popGo]
      | str s => simp [popGo]
      | map m => simp [popGo]

/-- Every error the quoted-key scanner produces is a path-syntax
error. -/
theorem readQuoted_err {q : Char} :
    ∀ (cs : List Char) {e : Err},
      readQuoted q cs = .error e → e = .jsonPathError
  | [], e, h => by
    simp only [readQuoted] at h
    exact (Except.error.inj h).symm
  | c :: cs, e, h => by
    rw [readQuoted.eq_def] at h
    dsimp only at h
    by_cases hbs : c = '\\'
    · rw [if_pos hbs] at h
      cases cs with
      | nil => exact (Except.error.inj h).symm
      | cons e2 cs2 =>
        dsimp only at h
        cases hrec : readQuoted q cs2 with
        | error err =>
          rw [hrec] at h
          dsimp only at h
          exact (Except.error.inj h) ▸ readQuoted_err cs2 hrec
        | ok pr =>
          obtain ⟨b2, r2⟩ := pr
          rw [hrec] at h
          exact absurd h (by simp)
    · rw [if_neg hbs] at h
      by_cases hcq : c = q
      · rw [if_pos hcq] at h
        exact absurd h (by simp)
      · rw [if_neg hcq] at h
        cases hrec : readQuoted q cs with
        | error err =>
          rw [hrec] at h
          dsimp only at h
          exact (Except.error.inj h) ▸ readQuoted_err cs hrec
        | ok pr =>
          obtain ⟨b2, r2⟩ := pr
          rw [hrec] at h
          exact absurd h (by simp)
termination_by cs => cs.length

/-- Every error of the bracket-segment reader is a path-syntax
error. -/
theorem readBracket_err {cs : List Char} {e : Err}
    (h : readBracket cs = .error e) : e = .jsonPathError := by
  match cs with
  | [] =>
    simp only [readBracket] at h
    exact (Except.error.inj h).symm
  | q :: cs2 =>
    rw [readBracket.eq_def] at h
    dsimp only at h
    split at h
    · cases hrq : readQuoted q cs2 with
      | error err =>
        rw [hrq] at h
        dsimp only at h
        exact (Except.error.inj h) ▸ readQuoted_err cs2 hrq
      | ok pr =>
        obtain ⟨buf, rest2⟩ := pr
        rw [hrq] at h
        dsimp only at h
        cases rest2 with
        | nil => exact (Except.error.inj h).symm
        | cons c rest3 =>
          dsimp only at h
          split at h
          · exact absurd h (by simp)
          · exact (Except.error.inj h).symm
    · split at h
      · exact (Except.error.inj h).symm
      · cases hdw : (q :: cs2).dropWhile Char.isDigit with
        | nil =>
          rw [hdw] at h
          exact (Except.error.inj h).symm
        | cons c rest3 =>
          rw [hdw] at h
          dsimp only at h
          split at h
          · exact absurd h (by simp)
          · exact (Except.error.inj h).symm

/-- Every error of the tokenizer loop is a path-syntax error. -/
theorem tokLoop_err :
    ∀ (cs : List Char) {e : Err}, tokLoop cs = .error e → e = .jsonPathError
  | [], e, h => by
    rw [tokLoop_nil] at h
    exact absurd h (by simp)
  | c :: rest, e, h => by
    rw [tokLoop.eq_def] at h
    dsimp only at h
    by_cases hdot : c = '.'
    · rw [if_pos hdot] at h
      exact tokLoop_err rest h
    · rw [if_neg hdot] at h
      by_cases hbr : c = '['
      · rw [dif_pos hbr] at h
        split at h
        · rename_i err herr
          exact (Except.error.inj h) ▸ readBracket_err herr
        · rename_i t rest2 hok
          split at h
          · rename_i err2 herr2
            have hlen := readBracket_length hok
            exact (Except.error.inj h) ▸ tokLoop_err rest2 herr2
          · exact absurd h (by simp)
      · rw [dif_neg hbr] at h
        split at h
        · rename_i err2 herr2
          exact (Except.error.inj h) ▸ tokLoop_err _ herr2
        · exact absurd h (by simp)
termination_by cs => cs.length
decreasing_by
  · simp
  · simp only [List.length_cons]
    omega
  · rw [List.dropWhile_cons_of_pos (by simp [isSimpleKeyChar, hdot, hbr])]
    have := List.IsSuffix.length_le
      (List.dropWhile_suffix (p := isSimpleKeyChar) (l := rest))
    simp only [List.length_cons]
    omega

/-- Every tokenizer error is a path-syntax error (`JsonPathError`). -/
theorem tokenizeV_err {path : String} {e : Err}
    (h : tokenizeV path = .error e) : e = .jsonPathError := by
  simp only [tokenizeV] at h
  split at h
  · exact (Except.error.inj h).symm
  · exact tokLoop_err _ h

/-- C7: `missing_ok=True` suppression.  For every document and every
path that tokenizes successfully into a non-empty token list:
delete and pop never raise (no `KeyError`/`TypeError`/`IndexError`
escapes); and whenever the `missing_ok=False` run raises, the
`missing_ok=True` run is a no-op — delete returns the document
unchanged and pop returns the absent (`none`) result with the document
unchanged.  A malformed path still raises even with `missing_ok=True`:
tokenizer errors propagate unchanged, and every tokenizer error is a
`JsonPathError` (path-syntax error). -/
theorem missingOkSuppression :
    (∀ (doc : Value) (path : String) (rl pe : Bool) (t : Token)
        (ts : List Token),
      tokenizeV path = .ok (t :: ts) →
      isOkE (deleteByJsonPath doc path true rl pe) = true ∧
      isOkE (popByJsonPath doc path true rl pe) = true ∧
      (∀ e : Err, deleteByJsonPath doc path false rl pe = .error e →
        deleteByJsonPath doc path true rl pe = .ok doc) ∧
      (∀ e : Err, popByJsonPath doc path false rl pe = .error e →
        popByJsonPath doc path true rl pe = .ok (none, doc))) ∧
    (∀ (doc : Value) (path : String) (mo rl pe : Bool) (e : Err),
      tokenizeV path = .error e →
      deleteByJsonPath doc path mo rl pe = .error e ∧
      popByJsonPath doc path mo rl pe = .error e ∧
      e = .jsonPathError) := by
  constructor
  · intro doc path rl pe t ts htok
    refine ⟨?_, ?_, ?_, ?_⟩
    · rw [deleteByJsonPath.eq_def, htok]
      dsimp only
      have hok := delGo_missingOk_ok ts t doc rl pe
      rw [isOkE_iff] at hok
      obtain ⟨r, hr⟩ := hok
      obtain ⟨v, b⟩ := r
      rw [hr]
      simp [isOkE]
    · rw [popByJsonPath.eq_def, htok]
      dsimp only
      have hok := popGo_missingOk_ok ts t doc rl pe
      rw [isOkE_iff] at hok
      obtain ⟨r, hr⟩ := hok
      obtain ⟨rm, v, b⟩ := r
      rw [hr]
      simp [isOkE]
    · intro e herr
      rw [deleteByJsonPath.eq_def, htok] at herr ⊢
      dsimp only at herr ⊢
      cases hd : delGo doc t ts false rl pe with
      | error e2 =>
        rw [delGo_noop ts t doc rl pe e2 hd]
      | ok r =>
        rw [hd] at herr
        obtain ⟨v, b⟩ := r
        exact absurd herr (by simp)
    · intro e herr
      rw [popByJsonPath.eq_def, htok] at herr ⊢
      dsimp only at herr ⊢
      cases hd : popGo doc t ts false rl pe with
      | error e2 =>
        rw [popGo_noop ts t doc rl pe e2 hd]
      | ok r =>
        rw [hd] at herr
        obtain ⟨rm, v, b⟩ := r
        exact absurd herr (by simp)
  · intro doc path mo rl pe e htok
    refine ⟨?_, ?_, tokenizeV_err htok⟩
    · rw [deleteByJsonPath.eq_def, htok]
    · rw [popByJsonPath.eq_def, htok]

/-- Witness for C7: on the empty map and path `$.a`, both delete and
pop with `missing_ok=True` are no-ops (the `missing_ok=False` runs
raise `KeyError`). -/
theorem missingOkSuppression_witness :
    deleteByJsonPath (.map []) ("$.a") true true true = .ok (.map []) ∧
    popByJsonPath (.map []) ("$.a") true true true = .ok (none, .map []) := by
  have htok : tokenizeV ("$.a") = .ok [.key ("a")] := by
    simp [tokenizeV, stripDollar, tokLoop, readBracket, readQuoted,
      isSimpleKeyChar]
  constructor
  · exact (missingOkSuppression.1 (.map []) ("$.a") true true
      (.key ("a")) [] htok).2.2.1 .keyError
      (by rw [deleteByJsonPath.eq_def, htok]; decide)
  · exact (missingOkSuppression.1 (.map []) ("$.a") true true
      (.key ("a")) [] htok).2.2.2 .keyError
      (by rw [popByJsonPath.eq_def, htok]; decide)

/-! ### Intermediate synthesis by set (claims C8 and C10) -/

theorem mapLookup_mapSet_self :
    ∀ (m : List (String × Value)) (k : String) (v : Value),
      mapLookup (mapSet m k v) k = some v := by
  intro m
  induction m with
  | nil => intro k v; simp [mapSet, mapLookup]
  | cons p rest ihr =>
    obtain ⟨k', v'⟩ := p
    intro k v
    simp only [mapSet]
    by_cases hk : k' = k
    · rw [if_pos hk]
      simp [mapLookup]
    · rw [if_neg hk]
      simp only [mapLookup, if_neg hk]
      exact ihr k v

theorem mapSet_mapSet :
    ∀ (m : List (String × Value)) (k : String) (v w : Value),
      mapSet (mapSet m k v) k w = mapSet m k w := by
  intro m
  induction m with
  | nil => intro k v w; simp [mapSet]
  | cons p rest ihr =>
    obtain ⟨k', v'⟩ := p
    intro k v w
    simp only [mapSet]
    by_cases hk : k' = k
    · rw [if_pos hk]
      simp [mapSet, hk]
    · rw [if_neg hk]
      simp only [mapSet, if_neg hk]
      rw [ihr k v w]

theorem emptyFor_ne_null (t : Token) : emptyFor t ≠ .null := by
  cases t <;> simp [emptyFor]

/-- Core of C8/C10 for map steps: a missing or null-valued
intermediate key with `create_missing=True` behaves exactly as if the
key had first been set to the fresh empty container chosen by the next
token. -/
theorem setGo_key_synthesizes (m : List (String × Value)) (k : String)
    (t : Token) (ts : List Token) (v : Value)
    (h : mapLookup m k = none ∨ mapLookup m k = some .null) :
    setGo (.map m) (.key k) (t :: ts) v true =
      setGo (.map (mapSet m k (emptyFor t))) (.key k) (t :: ts) v true := by
  rw [setGo.eq_def]
  conv_rhs => rw [setGo.eq_def]
  dsimp only
  rw [mapLookup_mapSet_self m k (emptyFor t)]
  rcases h with h | h <;> rw [h] <;>
    cases hrec : setGo (emptyFor t) t ts v true <;>
      simp [emptyFor_ne_null t, hrec, mapSet_mapSet]

/-- Core of C8 for list growth: indexing a sequence at or beyond its
length with `create_missing=True` behaves exactly as if the sequence
had first been grown with null padding up to and including the needed
index. -/
theorem setGo_idx_pads (l : List Value) (i : Nat) (ts : List Token)
    (v : Value) (h : l.length ≤ i) :
    setGo (.seq l) (.idx i) ts v true =
      setGo (.seq (l ++ List.replicate (i + 1 - l.length) .null)) (.idx i)
        ts v true := by
  rw [setGo.eq_def]
  conv_rhs => rw [setGo.eq_def]
  dsimp only
  have hlen : (l ++ List.replicate (i + 1 - l.length) Value.null).length =
      i + 1 := by
    simp
    omega
  rw [if_pos (by omega : i ≥ l.length)]
  rw [hlen]
  rw [if_neg (by omega : ¬ i ≥ i + 1)]
  simp

/-- Core of C10 for list steps: a null element at an in-range,
non-final index with `create_missing=True` behaves exactly as if the
element had first been replaced by the fresh empty container chosen by
the next token. -/
theorem setGo_idx_null_synthesizes (l : List Value) (i : Nat) (t : Token)
    (ts : List Token) (v : Value) (h : i < l.length)
    (hnull : l[i] = Value.null) :
    setGo (.seq l) (.idx i) (t :: ts) v true =
      setGo (.seq (l.set i (emptyFor t))) (.idx i) (t :: ts) v true := by
  rw [setGo.eq_def]
  conv_rhs => rw [setGo.eq_def]
  dsimp only
  rw [if_neg (by omega : ¬ i ≥ l.length)]
  rw [if_neg (by simp; omega : ¬ i ≥ (l.set i (emptyFor t)).length)]
  dsimp only
  rw [List.getD_eq_getElem l Value.null h, hnull]
  rw [List.getD_eq_getElem _ Value.null (by simp [h]),
    List.getElem_set_self (h := by simp [h])]
  rw [if_pos rfl]
  rw [if_neg (emptyFor_ne_null t)]
  cases hrec : setGo (emptyFor t) t ts v true <;>
    simp [hrec, List.set_set]

/-- C8's `create_missing=False` failure for a missing intermediate
key. -/
theorem setGo_key_noCreate (m : List (String × Value)) (k : String)
    (t : Token) (ts : List Token) (v : Value)
    (h : mapLookup m k = none) :
    setGo (.map m) (.key k) (t :: ts) v false = .error .keyError := by
  rw [setGo.eq_def]
  dsimp only
  rw [h]
  rfl

/-- C8's `create_missing=False` failure for an out-of-range index. -/
theorem setGo_idx_noCreate (l : List Value) (i : Nat) (ts : List Token)
    (v : Value) (h : l.length ≤ i) :
    setGo (.seq l) (.idx i) ts v false = .error .indexError := by
  rw [setGo.eq_def]
  dsimp only
  rw [if_pos (by omega : i ≥ l.length)]
  rfl

/-- C8's final-index padding: assignment at an index at or beyond the
length grows the sequence with null padding up to and including the
needed index, then assigns. -/
theorem setGo_idx_pad_assign (l : List Value) (i : Nat) (v : Value)
    (h : l.length ≤ i) :
    setGo (.seq l) (.idx i) [] v true =
      .ok (.seq ((l ++ List.replicate (i + 1 - l.length) Value.null).set i v)) := by
  rw [setGo.eq_def]
  dsimp only
  rw [if_pos (by omega : i ≥ l.length)]
  simp

/-- C8: intermediate synthesis by `set`.  With `create_missing=True` a
missing intermediate key is synthesized as an empty map, or an empty
sequence when the next token is an index (`emptyFor`); a sequence
indexed at or beyond its length is grown with null padding up to and
including the needed index before assignment.  With
`create_missing=False` a missing intermediate key raises `KeyError`
and an out-of-range index raises `IndexError` instead. -/
theorem setCreateMissingSynthesis :
    (∀ (m : List (String × Value)) (k : String) (t : Token)
        (ts : List Token) (v : Value),
      mapLookup m k = none →
      setGo (.map m) (.key k) (t :: ts) v true =
        setGo (.map (mapSet m k (emptyFor t))) (.key k) (t :: ts) v true) ∧
    (∀ (l : List Value) (i : Nat) (ts : List Token) (v : Value),
      l.length ≤ i →
      setGo (.seq l) (.idx i) ts v true =
        setGo (.seq (l ++ List.replicate (i + 1 - l.length) .null)) (.idx i)
          ts v true) ∧
    (∀ (l : List Value) (i : Nat) (v : Value),
      l.length ≤ i →
      setGo (.seq l) (.idx i) [] v true =
        .ok (.seq ((l ++ List.replicate (i + 1 - l.length) Value.null).set i v))) ∧
    (∀ (m : List (String × Value)) (k : String) (t : Token)
        (ts : List Token) (v : Value),
      mapLookup m k = none →
      setGo (.map m) (.key k) (t :: ts) v false = .error .keyError) ∧
    (∀ (l : List Value) (i : Nat) (ts : List Token) (v : Value),
      l.length ≤ i →
      setGo (.seq l) (.idx i) ts v false = .error .indexError) :=
  ⟨fun m k t ts v h => setGo_key_synthesizes m k t ts v (Or.inl h),
    fun l i ts v h => setGo_idx_pads l i ts v h,
    fun l i v h => setGo_idx_pad_assign l i v h,
    fun m k t ts v h => setGo_key_noCreate m k t ts v h,
    fun l i ts v h => setGo_idx_noCreate l i ts v h⟩

/-- Witness for C8 on concrete inputs: a missing key `a` in the empty
map is synthesized as an empty sequence (next token is an index), and
setting index 2 of `[null]` pads with nulls before assigning. -/
theorem setCreateMissingSynthesis_witness :
    (setGo (.map []) (.key ("a")) [.idx 0] (.int 7) true =
      setGo (.map (mapSet [] ("a") (emptyFor (.idx 0)))) (.key ("a"))
        [.idx 0] (.int 7) true) ∧
    setGo (.seq [.null]) (.idx 2) [] (.int 7) true =
      .ok (.seq (([Value.null] ++ List.replicate (2 + 1 - 1) Value.null).set 2
        (.int 7))) :=
  ⟨setCreateMissingSynthesis.1 [] ("a") (.idx 0) [] (.int 7) (by decide),
    setCreateMissingSynthesis.2.2.1 [.null] 2 (.int 7) (by decide)⟩

/-! ### Null-valued intermediates (claim C10) -/

theorem delGo_key_null (m : List (String × Value)) (k : String) (t : Token)
    (ts : List Token) (rl pe : Bool) (h : mapLookup m k = some .null) :
    delGo (.map m) (.key k) (t :: ts) false rl pe = .error .keyError ∧
    delGo (.map m) (.key k) (t :: ts) true rl pe = .ok (.map m, false) := by
  constructor <;>
    · rw [delGo.eq_def]
      dsimp only
      rw [h]
      simp

theorem delGo_idx_null (l : List Value) (i : Nat) (t : Token)
    (ts : List Token) (rl pe : Bool) (h : i < l.length)
    (hnull : l[i] = Value.null) :
    delGo (.seq l) (.idx i) (t :: ts) false rl pe = .error .indexError ∧
    delGo (.seq l) (.idx i) (t :: ts) true rl pe = .ok (.seq l, false) := by
  constructor <;>
    · rw [delGo.eq_def]
      dsimp only
      rw [dif_pos h, if_pos hnull]
      simp

theorem popGo_key_null (m : List (String × Value)) (k : String) (t : Token)
    (ts : List Token) (rl pe : Bool) (h : mapLookup m k = some .null) :
    popGo (.map m) (.key k) (t :: ts) false rl pe = .error .keyError ∧
    popGo (.map m) (.key k) (t :: ts) true rl pe =
      .ok (none, .map m, false) := by
  constructor <;>
    · rw [popGo.eq_def]
      dsimp only
      rw [h]
      simp

theorem popGo_idx_null (l : List Value) (i : Nat) (t : Token)
    (ts : List Token) (rl pe : Bool) (h : i < l.length)
    (hnull : l[i] = Value.null) :
    popGo (.seq l) (.idx i) (t :: ts) false rl pe = .error .keyError ∧
    popGo (.seq l) (.idx i) (t :: ts) true rl pe =
      .ok (none, .seq l, false) := by
  constructor <;>
    · rw [popGo.eq_def]
      dsimp only
      rw [dif_pos h, if_pos hnull]
      simp

/-- C10: null-valued intermediates are treated as absent.  At a
non-final step resolving to an existing entry that holds null:
`set` with `create_missing=True` silently replaces the null with a
fresh container chosen by the next token (map, or sequence when the
next token is an index); `delete` raises `KeyError` (dict step) /
`IndexError` (list step) and `pop` raises `KeyError` in both cases —
or, with `missing_ok=True`, they are no-ops returning the absent
result — even though the key or index does exist, with a null
value. -/
theorem nullIntermediatesTreatedAsAbsent :
    (∀ (m : List (String × Value)) (k : String) (t : Token)
        (ts : List Token) (v : Value),
      mapLookup m k = some .null →
      setGo (.map m) (.key k) (t :: ts) v true =
        setGo (.map (mapSet m k (emptyFor t))) (.key k) (t :: ts) v true) ∧
    (∀ (l : List Value) (i : Nat) (t : Token) (ts : List Token) (v : Value)
        (h : i < l.length),
      l[i] = Value.null →
      setGo (.seq l) (.idx i) (t :: ts) v true =
        setGo (.seq (l.set i (emptyFor t))) (.idx i) (t :: ts) v true) ∧
    (∀ (m : List (String × Value)) (k : String) (t : Token)
        (ts : List Token) (rl pe : Bool),
      mapLookup m k = some .null →
      delGo (.map m) (.key k) (t :: ts) false rl pe = .error .keyError ∧
      delGo (.map m) (.key k) (t :: ts) true rl pe = .ok (.map m, false) ∧
      popGo (.map m) (.key k) (t :: ts) false rl pe = .error .keyError ∧
      popGo (.map m) (.key k) (t :: ts) true rl pe =
        .ok (none, .map m, false)) ∧
    (∀ (l : List Value) (i : Nat) (t : Token) (ts : List Token) (rl pe : Bool)
        (h : i < l.length),
      l[i] = Value.null →
      delGo (.seq l) (.idx i) (t :: ts) false rl pe = .error .indexError ∧
      delGo (.seq l) (.idx i) (t :: ts) true rl pe = .ok (.seq l, false) ∧
      popGo (.seq l) (.idx i) (t :: ts) false rl pe = .error .keyError ∧
      popGo (.seq l) (.idx i) (t :: ts) true rl pe =
        .ok (none, .seq l, false)) :=
  ⟨fun m k t ts v h => setGo_key_synthesizes m k t ts v (Or.inr h),
    fun l i t ts v h hnull => setGo_idx_null_synthesizes l i t ts v h hnull,
    fun m k t ts rl pe h =>
      ⟨(delGo_key_null m k t ts rl pe h).1, (delGo_key_null m k t ts rl pe h).2,
        (popGo_key_null m k t ts rl pe h).1,
        (popGo_key_null m k t ts rl pe h).2⟩,
    fun l i t ts rl pe h hnull =>
      ⟨(delGo_idx_null l i t ts rl pe h hnull).1,
        (delGo_idx_null l i t ts rl pe h hnull).2,
        (popGo_idx_null l i t ts rl pe h hnull).1,
        (popGo_idx_null l i t ts rl pe h hnull).2⟩⟩

/-- Witness for C10 on the map `a ↦ null` and the sequence `[null]`. -/
theorem nullIntermediatesTreatedAsAbsent_witness :
    (setGo (.map [("a", .null)]) (.key ("a")) [.key ("b")] (.int 1) true =
      setGo (.map (mapSet [("a", .null)] ("a") (emptyFor (.key ("b")))))
        (.key ("a")) [.key ("b")] (.int 1) true) ∧
    delGo (.map [("a", .null)]) (.key ("a")) [.key ("b")] false true true =
      .error .keyError ∧
    popGo (.seq [.null]) (.idx 0) [.key ("b")] false false false =
      .error .keyError :=
  ⟨nullIntermediatesTreatedAsAbsent.1 [("a", .null)] ("a") (.key ("b")) []
      (.int 1) (by decide),
    (nullIntermediatesTreatedAsAbsent.2.2.1 [("a", .null)] ("a") (.key ("b"))
      [] true true (by decide)).1,
    (nullIntermediatesTreatedAsAbsent.2.2.2 [.null] 0 (.key ("b")) [] false
      false (by decide) (by decide)).2.2.1⟩

/-! ### Heap model of `patch` (claim C9)

The tree embedding above cannot express Python's object identity, so
the frame property of `patch` — the caller's `base` is never mutated
and the result shares no mutable state with it — is proved over an
explicit heap: mutable objects (dicts and lists) live in numbered
cells; scalars are immutable and stored inline.  `copy.deepcopy` is
modelled with fuel (`none` = fuel exhausted or dangling reference,
impossible for well-formed inputs) and without the memo table — on
tree-shaped documents `deepcopy` copies every object exactly once
either way.  The values written by `set` are allocated as fresh cells
(in Python they are shared with the edit list, which is not part of
`base`). -/

/-- Immutable scalar payloads. -/
inductive Scalar where
  | snull : Scalar
  | sbool (b : Bool) : Scalar
  | sint (n : Int) : Scalar
  | sstr (s : String) : Scalar
  deriving DecidableEq

/-- A reference to a document node: either an inline immutable scalar
or a reference to a mutable heap cell. -/
inductive Node where
  | leaf (s : Scalar) : Node
  | ref (a : Nat) : Node
  deriving DecidableEq

/-- A mutable object: a dict or a list of node references. -/
inductive Cell where
  | cmap (entries : List (String × Node)) : Cell
  | cseq (items : List Node) : Cell
  deriving DecidableEq

/-- The heap: an allocation counter and the allocated cells (newest
first). -/
structure Heap where
  next : Nat
  cells : List (Nat × Cell)
  deriving DecidableEq

def findCell (h : Heap) (a : Nat) : Option Cell :=
  match h.cells.find? (fun p => p.1 = a) with
  | none => none
  | some p => some p.2

/-- Replace the first cell with address `a` (in-place mutation of the
object `a`). -/
def cellsSet : List (Nat × Cell) → Nat → Cell → List (Nat × Cell)
  | [], _, _ => []
  | p :: rest, a, c => if p.1 = a then (a, c) :: rest else p :: cellsSet rest a c

def updateCell (h : Heap) (a : Nat) (c : Cell) : Heap :=
  ⟨h.next, cellsSet h.cells a c⟩

/-- Allocate a fresh object. -/
def allocCell (h : Heap) (c : Cell) : Heap × Nat :=
  (⟨h.next + 1, (h.next, c) :: h.cells⟩, h.next)

/-- All node references stored inside a cell. -/
def cellNodes (c : Cell) : List Node :=
  match c with
  | .cmap entries => entries.map (·.2)
  | .cseq items => items

/-- The lookup/assignment/deletion helpers on dict cells (as for the
value model). -/
def nmapLookup : List (String × Node) → String → Option Node
  | [], _ => none
  | (k', n') :: rest, k => if k' = k then some n' else nmapLookup rest k

def nmapSet : List (String × Node) → String → Node → List (String × Node)
  | [], k, n => [(k, n)]
  | (k', n') :: rest, k, n =>
    if k' = k then (k, n) :: rest else (k', n') :: nmapSet rest k n

def nmapErase : List (String × Node) → String → List (String × Node)
  | [], _ => []
  | (k', n') :: rest, k => if k' = k then rest else (k', n') :: nmapErase rest k

mutual

/-- `copy.deepcopy`, fuelled (each dereference costs one unit). -/
def copyNode (fuel : Nat) (h : Heap) (n : Node) :
    Option (Heap × Node) :=
  match n with
  | .leaf s => some (h, .leaf s)
  | .ref a =>
    match fuel with
    | 0 => none
    | fuel + 1 =>
      match findCell h a with
      | none => none
      | some (.cmap entries) =>
        match copyEntries fuel h entries with
        | none => none
        | some (h2, entries2) =>
          let r := allocCell h2 (.cmap entries2)
          some (r.1, .ref r.2)
      | some (.cseq items) =>
        match copyItems fuel h items with
        | none => none
        | some (h2, items2) =>
          let r := allocCell h2 (.cseq items2)
          some (r.1, .ref r.2)

def copyEntries (fuel : Nat) (h : Heap) :
    List (String × Node) → Option (Heap × List (String × Node))
  | [] => some (h, [])
  | (k, n) :: rest =>
    match copyNode fuel h n with
    | none => none
    | some (h2, n2) =>
      match copyEntries fuel h2 rest with
      | none => none
      | some (h3, rest2) => some (h3, (k, n2) :: rest2)

def copyItems (fuel : Nat) (h : Heap) :
    List Node → Option (Heap × List Node)
  | [] => some (h, [])
  | n :: rest =>
    match copyNode fuel h n with
    | none => none
    | some (h2, n2) =>
      match copyItems fuel h2 rest with
      | none => none
      | some (h3, rest2) => some (h3, n2 :: rest2)

end

mutual

/-- Allocate a pure `Value` (an edit's `new_value`) into the heap,
producing the node to be stored. -/
def allocValue (h : Heap) : Value → Heap × Node
  | .null => (h, .leaf .snull)
  | .bool b => (h, .leaf (.sbool b))
  | .int n => (h, .leaf (.sint n))
  | .str s => (h, .leaf (.sstr s))
  | .map entries =>
    let r := allocEntries h entries
    let r2 := allocCell r.1 (.cmap r.2)
    (r2.1, .ref r2.2)
  | .seq items =>
    let r := allocItems h items
    let r2 := allocCell r.1 (.cseq r.2)
    (r2.1, .ref r2.2)

def allocEntries (h : Heap) :
    List (String × Value) → Heap × List (String × Node)
  | [] => (h, [])
  | (k, v) :: rest =>
    let r := allocValue h v
    let r2 := allocEntries r.1 rest
    (r2.1, (k, r.2) :: r2.2)

def allocItems (h : Heap) : List Value → Heap × List Node
  | [] => (h, [])
  | v :: rest =>
    let r := allocValue h v
    let r2 := allocItems r.1 rest
    (r2.1, r.2 :: r2.2)

end

/-- The fresh empty object for a missing intermediate, chosen by the
next token (`[] if isinstance(next_tok, int) else {}`). -/
def emptyCellFor (nextTok : Token) : Cell :=
  match nextTok with
  | .idx _ => .cseq []
  | .key _ => .cmap []

/-- `True` on the inline null (`current[tok] is None`). -/
def isNullNode (n : Node) : Bool :=
  match n with
  | .leaf .snull => true
  | _ => false

/-- The walking loop of `set_by_json_path` over the heap, mutating
cells in place.  `t` is the current token, `ts` the remaining ones. -/
def setHGo (h : Heap) (current : Node) (t : Token) (ts : List Token)
    (v : Value) (cm : Bool) : Except Err Heap :=
  match t with
  | .key k =>
    match current with
    | .leaf _ => .error .typeError
    | .ref a =>
      match findCell h a with
      | none => .error .typeError
      | some (.cseq _) => .error .typeError
      | some (.cmap m) =>
        match ts with
        | [] =>
          let r := allocValue h v
          .ok (updateCell r.1 a (.cmap (nmapSet m k r.2)))
        | t2 :: ts2 =>
          match nmapLookup m k with
          | none =>
            if cm then
              let r := allocCell h (emptyCellFor t2)
              setHGo (updateCell r.1 a (.cmap (nmapSet m k (.ref r.2))))
                (.ref r.2) t2 ts2 v cm
            else .error .keyError
          | some child =>
            if isNullNode child then
              if cm then
                let r := allocCell h (emptyCellFor t2)
                setHGo (updateCell r.1 a (.cmap (nmapSet m k (.ref r.2))))
                  (.ref r.2) t2 ts2 v cm
              else .error .keyError
            else setHGo h child t2 ts2 v cm
  | .idx i =>
    match current with
    | .leaf _ => .error .typeError
    | .ref a =>
      match findCell h a with
      | none => .error .typeError
      | some (.cmap _) => .error .typeError
      | some (.cseq l) =>
        match
          (if i ≥ l.length then
            if cm then
              some (l ++ List.replicate (i + 1 - l.length) (.leaf .snull))
            else none
          else some l : Option (List Node))
        with
        | none => .error .indexError
        | some l2 =>
          let h1 := updateCell h a (.cseq l2)
          match ts with
          | [] =>
            let r := allocValue h1 v
            .ok (updateCell r.1 a (.cseq (l2.set i r.2)))
          | t2 :: ts2 =>
            if isNullNode (l2.getD i (.leaf .snull)) then
              if cm then
                let r := allocCell h1 (emptyCellFor t2)
                setHGo (updateCell r.1 a (.cseq (l2.set i (.ref r.2))))
                  (.ref r.2) t2 ts2 v cm
              else .error .keyError
            else setHGo h1 (l2.getD i (.leaf .snull)) t2 ts2 v cm

/-- `set_by_json_path` over the heap. -/
def setH (h : Heap) (root : Node) (path : String) (v : Value)
    (cm : Bool) : Except Err Heap :=
  match tokenizeV path with
  | .error err => .error err
  | .ok [] => .error .jsonPathError
  | .ok (t :: ts) => setHGo h root t ts v cm

/-- The parent-collecting traversal of `delete_by_json_path`
(`for idx, tok in enumerate(tokens[:-1])`): returns `none` for the
`missing_ok` no-op, otherwise the node holding the final token and the
`parents` list of (object address, token used to reach the child). -/
def delTraverseH (h : Heap) (current : Node) (t : Token) (ts : List Token)
    (parents : List (Nat × Token)) (mo : Bool) :
    Except Err (Option (Node × Token × List (Nat × Token))) :=
  match ts with
  | [] => .ok (some (current, t, parents))
  | t2 :: ts2 =>
    match t with
    | .key k =>
      match current with
      | .leaf _ => if mo then .ok none else .error .typeError
      | .ref a =>
        match findCell h a with
        | some (.cmap m) =>
          match nmapLookup m k with
          | none => if mo then .ok none else .error .keyError
          | some child =>
            if isNullNode child then
              if mo then .ok none else .error .keyError
            else
              delTraverseH h child t2 ts2 (parents ++ [(a, t)]) mo
        | _ => if mo then .ok none else .error .typeError
    | .idx i =>
      match current with
      | .leaf _ => if mo then .ok none else .error .typeError
      | .ref a =>
        match findCell h a with
        | some (.cseq l) =>
          if h2 : i < l.length then
            if isNullNode l[i] then
              if mo then .ok none else .error .indexError
            else
              delTraverseH h l[i] t2 ts2 (parents ++ [(a, t)]) mo
          else if mo then .ok none
          else .error .indexError
        | _ => if mo then .ok none else .error .typeError

/-- The leaf deletion step of `delete_by_json_path`: `none` for the
`missing_ok` no-op, otherwise the updated heap and the address of the
object the leaf was removed from (the start of the pruning walk). -/
def delLeafH (h : Heap) (current : Node) (leaf : Token) (mo rl : Bool) :
    Except Err (Option (Heap × Nat)) :=
  match leaf with
  | .key k =>
    match current with
    | .leaf _ => if mo then .ok none else .error .typeError
    | .ref a =>
      match findCell h a with
      | some (.cmap m) =>
        if (nmapLookup m k).isSome then
          .ok (some (updateCell h a (.cmap (nmapErase m k)), a))
        else if mo then .ok none
        else .error .keyError
      | _ => if mo then .ok none else .error .typeError
  | .idx i =>
    match current with
    | .leaf _ => if mo then .ok none else .error .typeError
    | .ref a =>
      match findCell h a with
      | some (.cseq l) =>
        if i < l.length then
          .ok (some (updateCell h a
            (.cseq (if rl then l.eraseIdx i else l.set i (.leaf .snull))), a))
        else if mo then .ok none
        else .error .indexError
      | _ => if mo then .ok none else .error .typeError

/-- `_is_empty_container` over the heap. -/
def isEmptyCellAt (h : Heap) (a : Nat) : Bool :=
  match findCell h a with
  | some (.cmap m) => m.isEmpty
  | some (.cseq l) => l.isEmpty
  | none => false

/-- `_delete_in_parent` over the heap (the parent is a known
container; a mismatch leaves the heap unchanged, unreachable from
`delete_by_json_path`). -/
def delInParentH (h : Heap) (pa : Nat) (tok : Token) (rl : Bool) : Heap :=
  match findCell h pa, tok with
  | some (.cmap m), .key k =>
    if (nmapLookup m k).isSome then updateCell h pa (.cmap (nmapErase m k))
    else h
  | some (.cseq l), .idx i =>
    if i < l.length then
      updateCell h pa (.cseq (if rl then l.eraseIdx i else l.set i (.leaf .snull)))
    else h
  | _, _ => h

/-- The upward pruning loop (`for depth in range(len(parents)-1, -1,
-1)`): `revParents` is the parents list deepest-first. -/
def pruneH (h : Heap) (child : Nat) (revParents : List (Nat × Token))
    (rl : Bool) : Heap :=
  match revParents with
  | [] => h
  | (pa, tok) :: rest =>
    if isEmptyCellAt h child then
      pruneH (delInParentH h pa tok rl) pa rest rl
    else h

/-- `delete_by_json_path` over the heap. -/
def deleteH (h : Heap) (root : Node) (path : String) (mo rl pe : Bool) :
    Except Err Heap :=
  match tokenizeV path with
  | .error err => .error err
  | .ok [] => .error .jsonPathError
  | .ok (t :: ts) =>
    match delTraverseH h root t ts [] mo with
    | .error err => .error err
    | .ok none => .ok h
    | .ok (some (leafParent, leafTok, parents)) =>
      match delLeafH h leafParent leafTok mo rl with
      | .error err => .error err
      | .ok none => .ok h
      | .ok (some (h2, startAddr)) =>
        .ok (if pe then pruneH h2 startAddr parents.reverse rl else h2)

/-- One `patch` loop iteration over the heap. -/
def patchHStep (h : Heap) (out : Node) (op : Delta) : Except Err Heap :=
  if op.operation = "deleted" then deleteH h out op.path false true true
  else setH h out op.path op.new_value true

def patchHGo (h : Heap) (out : Node) : List Delta → Except Err Heap
  | [] => .ok h
  | op :: rest =>
    match patchHStep h out op with
    | .error err => .error err
    | .ok h2 => patchHGo h2 out rest

/-- `patch(base, operations)` over the heap: deep-copy the base, then
apply the operations to the copy.  The outer `Option` is the fuel of
the copy (always sufficient for well-formed inputs); the result is the
final heap and the root of the output document. -/
def patchH (h : Heap) (base : Node) (ops : List Delta) (fuel : Nat) :
    Option (Except Err (Heap × Node)) :=
  match copyNode fuel h base with
  | none => none
  | some (h1, out) =>
    match patchHGo h1 out ops with
    | .error err => some (.error err)
    | .ok h2 => some (.ok (h2, out))

/-! #### Frame reasoning for the heap model -/

/-- Does the node avoid referencing cells below `N`?  (Scalars do
trivially.) -/
def nodeGE (N : Nat) (n : Node) : Prop :=
  ∀ r, n = .ref r → N ≤ r

/-- Heap well-formedness: every cell address and every stored
reference is below the allocation counter. -/
def heapWF (h : Heap) : Bool :=
  h.cells.all (fun p =>
    decide (p.1 < h.next) &&
      (cellNodes p.2).all (fun n =>
        match n with
        | .leaf _ => true
        | .ref r => decide (r < h.next)))

/-- `h` extends `h0`: only cells at addresses `≥ h0.next` were added
or modified (the old cells are an untouched suffix). -/
def HExt (h0 h : Heap) : Prop :=
  h0.next ≤ h.next ∧
  ∃ pre, h.cells = pre ++ h0.cells ∧ ∀ p ∈ pre, h0.next ≤ p.1

/-- Cells at addresses `≥ N` reference only addresses `≥ N`. -/
def HighClosed (N : Nat) (h : Heap) : Prop :=
  ∀ p ∈ h.cells, N ≤ p.1 → ∀ n ∈ cellNodes p.2, nodeGE N n

theorem HExt.refl (h : Heap) : HExt h h :=
  ⟨Nat.le.refl, [], rfl, by simp⟩

theorem HExt.trans {h0 h1 h2 : Heap} (e1 : HExt h0 h1) (e2 : HExt h1 h2) :
    HExt h0 h2 := by
  obtain ⟨hn1, pre1, hc1, hp1⟩ := e1
  obtain ⟨hn2, pre2, hc2, hp2⟩ := e2
  refine ⟨Nat.le_trans hn1 hn2, pre2 ++ pre1, ?_, ?_⟩
  · rw [hc2, hc1, List.append_assoc]
  · intro p hp
    rcases List.mem_append.mp hp with hmem | hmem
    · exact Nat.le_trans hn1 (hp2 p hmem)
    · exact hp1 p hmem

theorem find?_keys_append_low {pre rest : List (Nat × Cell)} {a : Nat}
    (hpre : ∀ p ∈ pre, ¬(p.1 = a)) :
    (pre ++ rest).find? (fun p => p.1 = a) =
      rest.find? (fun p => p.1 = a) := by
  induction pre with
  | nil => rfl
  | cons q pre2 ih =>
    simp only [List.cons_append]
    rw [List.find?_cons_of_neg _ (by simp [hpre q (by simp)])]
    exact ih (fun p hp => hpre p (by simp [hp]))

/-- Old cells are found unchanged in an extension. -/
theorem HExt.findCell_low {h0 h : Heap} (e : HExt h0 h)
    (hwf : heapWF h0 = true) {a : Nat} (ha : a < h0.next) :
    findCell h a = findCell h0 a := by
  obtain ⟨hn, pre, hc, hp⟩ := e
  simp only [findCell, hc]
  rw [find?_keys_append_low]
  intro p hmem hpa
  have := hp p hmem
  omega

theorem mem_cellsSet {l : List (Nat × Cell)} {a : Nat} {c : Cell} :
    ∀ p ∈ cellsSet l a c, p ∈ l ∨ p = (a, c) := by
  induction l with
  | nil => intro p hp; simp [cellsSet] at hp
  | cons q rest ih =>
    intro p hp
    simp only [cellsSet] at hp
    split at hp
    · rcases List.mem_cons.mp hp with hp | hp
      · exact Or.inr hp
      · exact Or.inl (by simp [hp])
    · rcases List.mem_cons.mp hp with hp | hp
      · exact Or.inl (by simp [hp])
      · rcases ih p hp with h | h
        · exact Or.inl (by simp [h])
        · exact Or.inr h

theorem cellsSet_append_of_low {l1 l2 : List (Nat × Cell)} {a : Nat}
    {c : Cell} (h2 : ∀ p ∈ l2, ¬(p.1 = a)) :
    cellsSet (l1 ++ l2) a c = cellsSet l1 a c ++ l2 := by
  induction l1 with
  | nil =>
    simp only [List.nil_append, cellsSet]
    induction l2 with
    | nil => rfl
    | cons q rest ih =>
      simp only [cellsSet]
      rw [if_neg (h2 q (by simp))]
      rw [ih (fun p hp => h2 p (by simp [hp]))]
  | cons q rest ih =>
    simp only [List.cons_append, cellsSet]
    split
    · rfl
    · rw [List.append_eq, ih]
      simp

/-- Updating a high cell preserves the extension. -/
theorem HExt.updateCellHigh {h0 h : Heap} (e : HExt h0 h)
    (hwf : heapWF h0 = true) {a : Nat} (ha : h0.next ≤ a) (c : Cell) :
    HExt h0 (updateCell h a c) := by
  obtain ⟨hn, pre, hc, hp⟩ := e
  refine ⟨hn, cellsSet pre a c, ?_, ?_⟩
  · simp only [DiffSpec.updateCell, hc]
    rw [cellsSet_append_of_low]
    intro p hmem hpa
    simp only [heapWF, List.all_eq_true] at hwf
    have := (hwf p hmem)
    simp only [Bool.and_eq_true, decide_eq_true_eq] at this
    omega
  · intro p hmem
    rcases mem_cellsSet p hmem with h | h
    · exact hp p h
    · rw [h]
      exact ha

theorem HExt.allocCellFresh {h0 h : Heap} (e : HExt h0 h) (c : Cell) :
    HExt h0 (allocCell h c).1 ∧ h0.next ≤ (allocCell h c).2 := by
  obtain ⟨hn, pre, hc, hp⟩ := e
  refine ⟨⟨by simp [DiffSpec.allocCell]; omega, (h.next, c) :: pre, ?_, ?_⟩, by
    simp [DiffSpec.allocCell]; omega⟩
  · simp [DiffSpec.allocCell, hc]
  · intro p hmem
    rcases List.mem_cons.mp hmem with h2 | h2
    · rw [h2]; exact hn
    · exact hp p h2

/-- A found cell with a high address is a high cell. -/
theorem HighClosed.find {N : Nat} {h : Heap} (hc : HighClosed N h)
    {a : Nat} (ha : N ≤ a) {c : Cell} (hf : findCell h a = some c) :
    ∀ n ∈ cellNodes c, nodeGE N n := by
  simp only [findCell] at hf
  cases hfind : h.cells.find? (fun p => p.1 = a) with
  | none => rw [hfind] at hf; exact absurd hf (by simp)
  | some p =>
    rw [hfind] at hf
    have hmem := List.mem_of_find?_eq_some hfind
    have hpa : p.1 = a := by
      have := List.find?_some hfind
      simpa using this
    have hc2 : c = p.2 := (Option.some.inj hf).symm
    subst hc2
    exact hc p hmem (by omega)

theorem HighClosed.updateCellNodes {N : Nat} {h : Heap} (hc : HighClosed N h)
    {a : Nat} {c : Cell} (hnodes : ∀ n ∈ cellNodes c, nodeGE N n) :
    HighClosed N (updateCell h a c) := by
  intro p hmem hp1
  rcases mem_cellsSet p hmem with h2 | h2
  · exact hc p h2 hp1
  · rw [h2]
    exact hnodes

theorem HighClosed.allocCellNodes {N : Nat} {h : Heap} (hc : HighClosed N h)
    {c : Cell} (hnodes : ∀ n ∈ cellNodes c, nodeGE N n) :
    HighClosed N (allocCell h c).1 := by
  intro p hmem hp1
  simp only [DiffSpec.allocCell] at hmem
  rcases List.mem_cons.mp hmem with h2 | h2
  · rw [h2]
    exact hnodes
  · exact hc p h2 hp1

/-- A well-formed heap is trivially high-closed at its own
counter (there are no high cells yet). -/
theorem heapWF_highClosed {h : Heap} (hwf : heapWF h = true) :
    HighClosed h.next h := by
  intro p hmem hp1
  simp only [heapWF, List.all_eq_true] at hwf
  have := hwf p hmem
  simp only [Bool.and_eq_true, decide_eq_true_eq] at this
  omega

theorem allocEntries_spec {h0 : Heap} :
    ∀ (entries : List (String × Value)) (h : Heap),
      HExt h0 h → HighClosed h0.next h →
      (∀ p ∈ entries, ∀ h2 : Heap, HExt h0 h2 → HighClosed h0.next h2 →
        HExt h0 (allocValue h2 p.2).1 ∧
          HighClosed h0.next (allocValue h2 p.2).1 ∧
          nodeGE h0.next (allocValue h2 p.2).2) →
      HExt h0 (allocEntries h entries).1 ∧
        HighClosed h0.next (allocEntries h entries).1 ∧
        ∀ p2 ∈ (allocEntries h entries).2, nodeGE h0.next p2.2 := by
  intro entries
  induction entries with
  | nil =>
    intro h he hh hmem
    exact ⟨he, hh, by simp [allocEntries]⟩
  | cons p rest ihr =>
    intro h he hh hmem
    obtain ⟨k, v⟩ := p
    obtain ⟨he1, hh1, hn1⟩ := hmem (k, v) (by simp) h he hh
    obtain ⟨he2, hh2, hn2⟩ :=
      ihr (allocValue h v).1 he1 hh1
        (fun p hp => hmem p (List.mem_cons_of_mem _ hp))
    refine ⟨?_, ?_, ?_⟩
    · simpa [allocEntries] using he2
    · simpa [allocEntries] using hh2
    · intro p2 hp2
      simp only [allocEntries] at hp2
      rcases List.mem_cons.mp hp2 with h2 | h2
      · rw [h2]
        exact hn1
      · exact hn2 p2 h2

theorem allocItems_spec {h0 : Heap} :
    ∀ (items : List Value) (h : Heap),
      HExt h0 h → HighClosed h0.next h →
      (∀ v ∈ items, ∀ h2 : Heap, HExt h0 h2 → HighClosed h0.next h2 →
        HExt h0 (allocValue h2 v).1 ∧
          HighClosed h0.next (allocValue h2 v).1 ∧
          nodeGE h0.next (allocValue h2 v).2) →
      HExt h0 (allocItems h items).1 ∧
        HighClosed h0.next (allocItems h items).1 ∧
        ∀ n ∈ (allocItems h items).2, nodeGE h0.next n := by
  intro items
  induction items with
  | nil =>
    intro h he hh hmem
    exact ⟨he, hh, by simp [allocItems]⟩
  | cons v rest ihr =>
    intro h he hh hmem
    obtain ⟨he1, hh1, hn1⟩ := hmem v (by simp) h he hh
    obtain ⟨he2, hh2, hn2⟩ :=
      ihr (allocValue h v).1 he1 hh1
        (fun v2 hv2 => hmem v2 (List.mem_cons_of_mem _ hv2))
    refine ⟨?_, ?_, ?_⟩
    · simpa [allocItems] using he2
    · simpa [allocItems] using hh2
    · intro n hn
      simp only [allocItems] at hn
      rcases List.mem_cons.mp hn with h2 | h2
      · rw [h2]
        exact hn1
      · exact hn2 n h2

/-- Allocating a pure value only adds high cells, preserves high
closure and returns a high node. -/
theorem allocValue_spec {h0 : Heap} (hwf : heapWF h0 = true) :
    ∀ (v : Value) (h : Heap), HExt h0 h → HighClosed h0.next h →
      HExt h0 (allocValue h v).1 ∧
        HighClosed h0.next (allocValue h v).1 ∧
        nodeGE h0.next (allocValue h v).2 := by
  intro v
  induction v using Value.inductionOn with
  | hnull => intro h he hh; exact ⟨he, hh, by simp [allocValue, nodeGE]⟩
  | hbool b => intro h he hh; exact ⟨he, hh, by simp [allocValue, nodeGE]⟩
  | hint n => intro h he hh; exact ⟨he, hh, by simp [allocValue, nodeGE]⟩
  | hstr s => intro h he hh; exact ⟨he, hh, by simp [allocValue, nodeGE]⟩
  | hmap m ih =>
    intro h he hh
    obtain ⟨he1, hh1, hn1⟩ := allocEntries_spec m h he hh ih
    have halloc := HExt.allocCellFresh he1 (.cmap (allocEntries h m).2)
    refine ⟨?_, ?_, ?_⟩
    · simpa [allocValue] using halloc.1
    · have := HighClosed.allocCellNodes hh1
        (c := .cmap (allocEntries h m).2)
        (by
          intro n hn
          simp only [cellNodes, List.mem_map] at hn
          obtain ⟨p2, hp2, hp2n⟩ := hn
          exact hp2n ▸ hn1 p2 hp2)
      simpa [allocValue] using this
    · simp only [allocValue, nodeGE]
      intro r hr
      have := halloc.2
      simp only [Node.ref.injEq] at hr
      omega
  | hseq l ih =>
    intro h he hh
    obtain ⟨he1, hh1, hn1⟩ := allocItems_spec l h he hh ih
    have halloc := HExt.allocCellFresh he1 (.cseq (allocItems h l).2)
    refine ⟨?_, ?_, ?_⟩
    · simpa [allocValue] using halloc.1
    · have := HighClosed.allocCellNodes hh1
        (c := .cseq (allocItems h l).2)
        (by
          intro n hn
          simp only [cellNodes] at hn
          exact hn1 n hn)
      simpa [allocValue] using this
    · simp only [allocValue, nodeGE]
      intro r hr
      have := halloc.2
      simp only [Node.ref.injEq] at hr
      omega

theorem copyEntries_spec {h0 : Heap} :
    ∀ (entries : List (String × Node)) (fuel : Nat) (h h2 : Heap)
      (ns : List (String × Node)),
      (∀ (n : Node) (h h2 : Heap) (n2 : Node), HExt h0 h →
        HighClosed h0.next h → copyNode fuel h n = some (h2, n2) →
        HExt h0 h2 ∧ HighClosed h0.next h2 ∧ nodeGE h0.next n2) →
      HExt h0 h → HighClosed h0.next h →
      copyEntries fuel h entries = some (h2, ns) →
      HExt h0 h2 ∧ HighClosed h0.next h2 ∧
        ∀ p ∈ ns, nodeGE h0.next p.2 := by
  intro entries
  induction entries with
  | nil =>
    intro fuel h h2 ns hcn he hh hcp
    simp only [copyEntries] at hcp
    obtain ⟨hh2, hns⟩ := Prod.mk.injEq .. ▸ Option.some.inj hcp
    subst hh2
    subst hns
    exact ⟨he, hh, by simp⟩
  | cons p rest ihr =>
    intro fuel h h2 ns hcn he hh hcp
    obtain ⟨k, n⟩ := p
    simp only [copyEntries] at hcp
    cases hc1 : copyNode fuel h n with
    | none => rw [hc1] at hcp; exact absurd hcp (by simp)
    | some r1 =>
      obtain ⟨hm, nm⟩ := r1
      rw [hc1] at hcp
      dsimp only at hcp
      cases hc2 : copyEntries fuel hm rest with
      | none => rw [hc2] at hcp; exact absurd hcp (by simp)
      | some r2 =>
        obtain ⟨hr, nsr⟩ := r2
        rw [hc2] at hcp
        dsimp only at hcp
        obtain ⟨hh2, hns⟩ := Prod.mk.injEq .. ▸ Option.some.inj hcp
        subst hh2
        subst hns
        obtain ⟨he1, hh1, hn1⟩ := hcn n h hm nm he hh hc1
        obtain ⟨he2, hh2, hn2⟩ := ihr fuel hm hr nsr hcn he1 hh1 hc2
        refine ⟨he2, hh2, ?_⟩
        intro p2 hp2
        rcases List.mem_cons.mp hp2 with h3 | h3
        · rw [h3]
          exact hn1
        · exact hn2 p2 h3

theorem copyItems_spec {h0 : Heap} :
    ∀ (items : List Node) (fuel : Nat) (h h2 : Heap) (ns : List Node),
      (∀ (n : Node) (h h2 : Heap) (n2 : Node), HExt h0 h →
        HighClosed h0.next h → copyNode fuel h n = some (h2, n2) →
        HExt h0 h2 ∧ HighClosed h0.next h2 ∧ nodeGE h0.next n2) →
      HExt h0 h → HighClosed h0.next h →
      copyItems fuel h items = some (h2, ns) →
      HExt h0 h2 ∧ HighClosed h0.next h2 ∧
        ∀ n ∈ ns, nodeGE h0.next n := by
  intro items
  induction items with
  | nil =>
    intro fuel h h2 ns hcn he hh hcp
    simp only [copyItems] at hcp
    obtain ⟨hh2, hns⟩ := Prod.mk.injEq .. ▸ Option.some.inj hcp
    subst hh2
    subst hns
    exact ⟨he, hh, by simp⟩
  | cons n rest ihr =>
    intro fuel h h2 ns hcn he hh hcp
    simp only [copyItems] at hcp
    cases hc1 : copyNode fuel h n with
    | none => rw [hc1] at hcp; exact absurd hcp (by simp)
    | some r1 =>
      obtain ⟨hm, nm⟩ := r1
      rw [hc1] at hcp
      dsimp only at hcp
      cases hc2 : copyItems fuel hm rest with
      | none => rw [hc2] at hcp; exact absurd hcp (by simp)
      | some r2 =>
        obtain ⟨hr, nsr⟩ := r2
        rw [hc2] at hcp
        dsimp only at hcp
        obtain ⟨hh2, hns⟩ := Prod.mk.injEq .. ▸ Option.some.inj hcp
        subst hh2
        subst hns
        obtain ⟨he1, hh1, hn1⟩ := hcn n h hm nm he hh hc1
        obtain ⟨he2, hh2, hn2⟩ := ihr fuel hm hr nsr hcn he1 hh1 hc2
        refine ⟨he2, hh2, ?_⟩
        intro n2 hn2m
        rcases List.mem_cons.mp hn2m with h3 | h3
        · rw [h3]
          exact hn1
        · exact hn2 n2 h3

/-- Deep copy only adds high cells, preserves high closure, and
returns a node whose references are all high (fresh). -/
theorem copyNode_spec {h0 : Heap} :
    ∀ (fuel : Nat) (n : Node) (h h2 : Heap) (n2 : Node),
      HExt h0 h → HighClosed h0.next h →
      copyNode fuel h n = some (h2, n2) →
      HExt h0 h2 ∧ HighClosed h0.next h2 ∧ nodeGE h0.next n2 := by
  intro fuel
  induction fuel with
  | zero =>
    intro n h h2 n2 he hh hcp
    cases n with
    | leaf s =>
      simp only [copyNode] at hcp
      obtain ⟨hh2, hns⟩ := Prod.mk.injEq .. ▸ Option.some.inj hcp
      subst hh2
      subst hns
      exact ⟨he, hh, by simp [nodeGE]⟩
    | ref a => simp [copyNode] at hcp
  | succ f ihf =>
    intro n h h2 n2 he hh hcp
    cases n with
    | leaf s =>
      simp only [copyNode] at hcp
      obtain ⟨hh2, hns⟩ := Prod.mk.injEq .. ▸ Option.some.inj hcp
      subst hh2
      subst hns
      exact ⟨he, hh, by simp [nodeGE]⟩
    | ref a =>
      simp only [copyNode] at hcp
      cases hf : findCell h a with
      | none => rw [hf] at hcp; exact absurd hcp (by simp)
      | some c =>
        rw [hf] at hcp
        cases c with
        | cmap entries =>
          dsimp only at hcp
          cases hce : copyEntries f h entries with
          | none => rw [hce] at hcp; exact absurd hcp (by simp)
          | some r =>
            obtain ⟨hm, ns⟩ := r
            rw [hce] at hcp
            dsimp only at hcp
            obtain ⟨hh2, hns⟩ := Prod.mk.injEq .. ▸ Option.some.inj hcp
            subst hh2
            subst hns
            obtain ⟨he1, hh1, hn1⟩ :=
              copyEntries_spec entries f h hm ns ihf he hh hce
            have halloc := HExt.allocCellFresh he1 (.cmap ns)
            refine ⟨halloc.1, ?_, ?_⟩
            · exact HighClosed.allocCellNodes hh1 (by
                intro n hn
                simp only [cellNodes, List.mem_map] at hn
                obtain ⟨p2, hp2, hp2n⟩ := hn
                exact hp2n ▸ hn1 p2 hp2)
            · intro r hr
              simp only [Node.ref.injEq] at hr
              have := halloc.2
              omega
        | cseq items =>
          dsimp only at hcp
          cases hce : copyItems f h items with
          | none => rw [hce] at hcp; exact absurd hcp (by simp)
          | some r =>
            obtain ⟨hm, ns⟩ := r
            rw [hce] at hcp
            dsimp only at hcp
            obtain ⟨hh2, hns⟩ := Prod.mk.injEq .. ▸ Option.some.inj hcp
            subst hh2
            subst hns
            obtain ⟨he1, hh1, hn1⟩ :=
              copyItems_spec items f h hm ns ihf he hh hce
            have halloc := HExt.allocCellFresh he1 (.cseq ns)
            refine ⟨halloc.1, ?_, ?_⟩
            · exact HighClosed.allocCellNodes hh1 (by
                intro n hn
                simp only [cellNodes] at hn
                exact hn1 n hn)
            · intro r hr
              simp only [Node.ref.injEq] at hr
              have := halloc.2
              omega

theorem nmapLookup_mem :
    ∀ {m : List (String × Node)} {k : String} {n : Node},
      nmapLookup m k = some n → n ∈ m.map (·.2) := by
  intro m
  induction m with
  | nil => intro k n h; simp [nmapLookup] at h
  | cons p rest ih =>
    obtain ⟨k', n'⟩ := p
    intro k n h
    simp only [nmapLookup] at h
    split at h
    · simp [Option.some.inj h]
    · simp only [List.map_cons, List.mem_cons]
      exact Or.inr (ih h)

theorem nmapSet_nodes {m : List (String × Node)} {k : String} {n : Node} :
    ∀ n2 ∈ (nmapSet m k n).map (·.2), n2 = n ∨ n2 ∈ m.map (·.2) := by
  induction m with
  | nil => intro n2 h; simp [nmapSet] at h; exact Or.inl h
  | cons p rest ih =>
    obtain ⟨k', n'⟩ := p
    intro n2 h
    simp only [nmapSet] at h
    split at h
    · simp only [List.map_cons, List.mem_cons] at h
      rcases h with h | h
      · exact Or.inl h
      · exact Or.inr (by simp [h])
    · simp only [List.map_cons, List.mem_cons] at h
      rcases h with h | h
      · exact Or.inr (by simp [h])
      · rcases ih n2 h with h2 | h2
        · exact Or.inl h2
        · exact Or.inr (by simp [h2])

theorem nmapErase_nodes {m : List (String × Node)} {k : String} :
    ∀ n2 ∈ (nmapErase m k).map (·.2), n2 ∈ m.map (·.2) := by
  induction m with
  | nil => intro n2 h; simp [nmapErase] at h
  | cons p rest ih =>
    obtain ⟨k', n'⟩ := p
    intro n2 h
    simp only [nmapErase] at h
    split at h
    · exact (by simp [h] : n2 ∈ ((k', n') :: rest).map (·.2))
    · simp only [List.map_cons, List.mem_cons] at h
      rcases h with h | h
      · simp [h]
      · simp only [List.map_cons, List.mem_cons]
        exact Or.inr (ih n2 h)

theorem getD_nodeGE {N : Nat} {l : List Node} {i : Nat}
    (h : ∀ n ∈ l, nodeGE N n) : nodeGE N (l.getD i (.leaf .snull)) := by
  by_cases hi : i < l.length
  · rw [List.getD_eq_getElem l _ hi]
    exact h _ (l.getElem_mem hi)
  · have hnone : l[i]? = none := List.getElem?_eq_none (by omega)
    rw [List.getD_eq_getElem?_getD, hnone]
    intro r hr
    exact absurd hr (by simp)

theorem pad_nodeGE {N : Nat} {l : List Node} {c : Nat}
    (h : ∀ n ∈ l, nodeGE N n) :
    ∀ n ∈ l ++ List.replicate c (Node.leaf .snull), nodeGE N n := by
  intro n hn
  rcases List.mem_append.mp hn with h2 | h2
  · exact h n h2
  · rw [List.eq_of_mem_replicate h2]
    intro r hr
    exact absurd hr (by simp)

theorem set_nodeGE {N : Nat} {l : List Node} {i : Nat} {x : Node}
    (h : ∀ n ∈ l, nodeGE N n) (hx : nodeGE N x) :
    ∀ n ∈ l.set i x, nodeGE N n := by
  intro n hn
  rcases List.mem_or_eq_of_mem_set hn with h2 | h2
  · exact h n h2
  · exact h2 ▸ hx

/-- The heap walk of `set_by_json_path` writes only to cells at high
addresses: the original heap region is untouched and high closure is
preserved. -/
theorem setHGo_spec {h0 : Heap} (hwf : heapWF h0 = true) :
    ∀ (ts : List Token) (t : Token) (h : Heap) (current : Node)
      (v : Value) (cm : Bool) (h2 : Heap),
      HExt h0 h → HighClosed h0.next h → nodeGE h0.next current →
      setHGo h current t ts v cm = .ok h2 →
      HExt h0 h2 ∧ HighClosed h0.next h2 := by
  intro ts
  induction ts with
  | nil =>
    intro t h current v cm h2 he hh hcur hset
    cases t with
    | key k =>
      cases current with
      | leaf s => simp [setHGo] at hset
      | ref a =>
        have ha : h0.next ≤ a := hcur a rfl
        simp only [setHGo] at hset
        cases hf : findCell h a with
        | none => rw [hf] at hset; exact absurd hset (by simp)
        | some c =>
          rw [hf] at hset
          cases c with
          | cseq l => exact absurd hset (by simp)
          | cmap m =>
            dsimp only at hset
            have hnodes := HighClosed.find hh ha hf
            obtain ⟨he1, hh1, hn1⟩ := allocValue_spec hwf v h he hh
            have hupd := HExt.updateCellHigh he1 hwf ha
              (.cmap (nmapSet m k (allocValue h v).2))
            have hhc := HighClosed.updateCellNodes hh1
              (a := a) (c := .cmap (nmapSet m k (allocValue h v).2)) (by
                intro n hn
                simp only [cellNodes] at hn
                rcases nmapSet_nodes n hn with h3 | h3
                · exact h3 ▸ hn1
                · exact hnodes n (by simpa [cellNodes] using h3))
            rw [← Except.ok.inj hset]
            exact ⟨hupd, hhc⟩
    | idx i =>
      cases current with
      | leaf s => simp [setHGo] at hset
      | ref a =>
        have ha : h0.next ≤ a := hcur a rfl
        simp only [setHGo] at hset
        cases hf : findCell h a with
        | none => rw [hf] at hset; exact absurd hset (by simp)
        | some c =>
          rw [hf] at hset
          cases c with
          | cmap m => exact absurd hset (by simp)
          | cseq l =>
            dsimp only at hset
            have hnodes : ∀ n ∈ l, nodeGE h0.next n := by
              intro n hn
              exact HighClosed.find hh ha hf n (by simpa [cellNodes] using hn)
            split at hset
            · exact absurd hset (by simp)
            · rename_i l2 hl2
              have hl2nodes : ∀ n ∈ l2, nodeGE h0.next n := by
                split at hl2
                · split at hl2
                  · rw [← Option.some.inj hl2]
                    exact pad_nodeGE hnodes
                  · exact absurd hl2 (by simp)
                · rw [← Option.some.inj hl2]
                  exact hnodes
              have he1 := HExt.updateCellHigh he hwf ha (.cseq l2)
              have hh1 := HighClosed.updateCellNodes hh
                (a := a) (c := .cseq l2) (by simpa [cellNodes] using hl2nodes)
              obtain ⟨he2, hh2, hn2⟩ :=
                allocValue_spec hwf v (updateCell h a (.cseq l2)) he1 hh1
              have hupd := HExt.updateCellHigh he2 hwf ha
                (.cseq (l2.set i (allocValue (updateCell h a (.cseq l2)) v).2))
              have hhc := HighClosed.updateCellNodes hh2
                (a := a)
                (c := .cseq (l2.set i
                  (allocValue (updateCell h a (.cseq l2)) v).2)) (by
                  intro n hn
                  simp only [cellNodes] at hn
                  exact set_nodeGE hl2nodes hn2 n hn)
              rw [← Except.ok.inj hset]
              exact ⟨hupd, hhc⟩
  | cons t2 ts2 ih =>
    intro t h current v cm h2 he hh hcur hset
    cases t with
    | key k =>
      cases current with
      | leaf s => simp [setHGo] at hset
      | ref a =>
        have ha : h0.next ≤ a := hcur a rfl
        simp only [setHGo] at hset
        cases hf : findCell h a with
        | none => rw [hf] at hset; exact absurd hset (by simp)
        | some c =>
          rw [hf] at hset
          cases c with
          | cseq l => exact absurd hset (by simp)
          | cmap m =>
            dsimp only at hset
            have hnodes := HighClosed.find hh ha hf
            have hcreate :
                ∀ h3 : Heap, setHGo
                    (updateCell (allocCell h (emptyCellFor t2)).1 a
                      (.cmap (nmapSet m k
                        (.ref (allocCell h (emptyCellFor t2)).2))))
                    (.ref (allocCell h (emptyCellFor t2)).2) t2 ts2 v cm =
                  .ok h3 →
                HExt h0 h3 ∧ HighClosed h0.next h3 := by
              intro h3 hrec
              obtain ⟨hea, haddr⟩ := HExt.allocCellFresh he (emptyCellFor t2)
              have hha : HighClosed h0.next (allocCell h (emptyCellFor t2)).1 :=
                HighClosed.allocCellNodes hh (by cases t2 <;> simp [emptyCellFor, cellNodes])
              have heu := HExt.updateCellHigh hea hwf ha
                (.cmap (nmapSet m k (.ref (allocCell h (emptyCellFor t2)).2)))
              have hhu := HighClosed.updateCellNodes hha
                (a := a)
                (c := .cmap (nmapSet m k
                  (.ref (allocCell h (emptyCellFor t2)).2))) (by
                  intro n hn
                  simp only [cellNodes] at hn
                  rcases nmapSet_nodes n hn with h4 | h4
                  · intro r hr
                    rw [h4] at hr
                    simp only [Node.ref.injEq] at hr
                    omega
                  · exact hnodes n (by simpa [cellNodes] using h4))
              exact ih t2 _ (.ref (allocCell h (emptyCellFor t2)).2) v cm h3
                heu hhu (by intro r hr; simp only [Node.ref.injEq] at hr; omega)
                hrec
            cases hl : nmapLookup m k with
            | none =>
              rw [hl] at hset
              dsimp only at hset
              split at hset
              · exact hcreate h2 hset
              · exact absurd hset (by simp)
            | some child =>
              rw [hl] at hset
              dsimp only at hset
              split at hset
              · split at hset
                · exact hcreate h2 hset
                · exact absurd hset (by simp)
              · exact ih t2 h child v cm h2 he hh
                  (hnodes child (by
                    simpa [cellNodes] using nmapLookup_mem hl)) hset
    | idx i =>
      cases current with
      | leaf s => simp [setHGo] at hset
      | ref a =>
        have ha : h0.next ≤ a := hcur a rfl
        simp only [setHGo] at hset
        cases hf : findCell h a with
        | none => rw [hf] at hset; exact absurd hset (by simp)
        | some c =>
          rw [hf] at hset
          cases c with
          | cmap m => exact absurd hset (by simp)
          | cseq l =>
            dsimp only at hset
            have hnodes : ∀ n ∈ l, nodeGE h0.next n := by
              intro n hn
              exact HighClosed.find hh ha hf n (by simpa [cellNodes] using hn)
            split at hset
            · exact absurd hset (by simp)
            · rename_i l2 hl2
              have hl2nodes : ∀ n ∈ l2, nodeGE h0.next n := by
                split at hl2
                · split at hl2
                  · rw [← Option.some.inj hl2]
                    exact pad_nodeGE hnodes
                  · exact absurd hl2 (by simp)
                · rw [← Option.some.inj hl2]
                  exact hnodes
              have he1 := HExt.updateCellHigh he hwf ha (.cseq l2)
              have hh1 := HighClosed.updateCellNodes hh
                (a := a) (c := .cseq l2) (by simpa [cellNodes] using hl2nodes)
              split at hset
              · split at hset
                · -- create-missing through a null element
                  obtain ⟨hea, haddr⟩ :=
                    HExt.allocCellFresh he1 (emptyCellFor t2)
                  have hha := HighClosed.allocCellNodes hh1
                    (c := emptyCellFor t2)
                    (by cases t2 <;> simp [emptyCellFor, cellNodes])
                  have heu := HExt.updateCellHigh hea hwf ha
                    (.cseq (l2.set i (.ref
                      (allocCell (updateCell h a (.cseq l2))
                        (emptyCellFor t2)).2)))
                  have hhu := HighClosed.updateCellNodes hha
                    (a := a)
                    (c := .cseq (l2.set i (.ref
                      (allocCell (updateCell h a (.cseq l2))
                        (emptyCellFor t2)).2))) (by
                      intro n hn
                      simp only [cellNodes] at hn
                      refine set_nodeGE hl2nodes ?_ n hn
                      intro r hr
                      simp only [Node.ref.injEq] at hr
                      omega)
                  exact ih t2 _ _ v cm h2 heu hhu
                    (by intro r hr; simp only [Node.ref.injEq] at hr; omega)
                    hset
                · exact absurd hset (by simp)
              · exact ih t2 _ (l2.getD i (.leaf .snull)) v cm h2 he1 hh1
                  (getD_nodeGE hl2nodes) hset

/-- The delete traversal is read-only; on success it returns a high
leaf-parent node and high parent addresses. -/
theorem delTraverseH_spec {h0 : Heap} :
    ∀ (ts : List Token) (t : Token) (h : Heap) (current : Node)
      (parents : List (Nat × Token)) (mo : Bool)
      (r : Node × Token × List (Nat × Token)),
      HighClosed h0.next h → nodeGE h0.next current →
      (∀ p ∈ parents, h0.next ≤ p.1) →
      delTraverseH h current t ts parents mo = .ok (some r) →
      nodeGE h0.next r.1 ∧ ∀ p ∈ r.2.2, h0.next ≤ p.1 := by
  intro ts
  induction ts with
  | nil =>
    intro t h current parents mo r hh hcur hpar htr
    simp only [delTraverseH] at htr
    have := Option.some.inj (Except.ok.inj htr)
    rw [← this]
    exact ⟨hcur, hpar⟩
  | cons t2 ts2 ih =>
    intro t h current parents mo r hh hcur hpar htr
    cases t with
    | key k =>
      cases current with
      | leaf s =>
        simp only [delTraverseH] at htr
        split at htr <;> simp at htr
      | ref a =>
        have ha : h0.next ≤ a := hcur a rfl
        simp only [delTraverseH] at htr
        cases hf : findCell h a with
        | none =>
          rw [hf] at htr
          dsimp only at htr
          split at htr <;> simp at htr
        | some c =>
          rw [hf] at htr
          cases c with
          | cseq l =>
            dsimp only at htr
            split at htr <;> simp at htr
          | cmap m =>
            dsimp only at htr
            have hnodes := HighClosed.find hh ha hf
            cases hl : nmapLookup m k with
            | none =>
              rw [hl] at htr
              dsimp only at htr
              split at htr <;> simp at htr
            | some child =>
              rw [hl] at htr
              dsimp only at htr
              split at htr
              · split at htr <;> simp at htr
              · exact ih t2 h child (parents ++ [(a, .key k)]) mo r hh
                  (hnodes child (by simpa [cellNodes] using nmapLookup_mem hl))
                  (by
                    intro p hp
                    rcases List.mem_append.mp hp with h2 | h2
                    · exact hpar p h2
                    · simp only [List.mem_singleton] at h2
                      rw [h2]
                      exact ha)
                  htr
    | idx i =>
      cases current with
      | leaf s =>
        simp only [delTraverseH] at htr
        split at htr <;> simp at htr
      | ref a =>
        have ha : h0.next ≤ a := hcur a rfl
        simp only [delTraverseH] at htr
        cases hf : findCell h a with
        | none =>
          rw [hf] at htr
          dsimp only at htr
          split at htr <;> simp at htr
        | some c =>
          rw [hf] at htr
          cases c with
          | cmap m =>
            dsimp only at htr
            split at htr <;> simp at htr
          | cseq l =>
            dsimp only at htr
            have hnodes : ∀ n ∈ l, nodeGE h0.next n := by
              intro n hn
              exact HighClosed.find hh ha hf n (by simpa [cellNodes] using hn)
            split at htr
            · rename_i hlt
              split at htr
              · split at htr <;> simp at htr
              · exact ih t2 h (l[i]) (parents ++ [(a, .idx i)]) mo r hh
                  (hnodes (l[i]) (l.getElem_mem hlt))
                  (by
                    intro p hp
                    rcases List.mem_append.mp hp with h2 | h2
                    · exact hpar p h2
                    · simp only [List.mem_singleton] at h2
                      rw [h2]
                      exact ha)
                  htr
            · split at htr <;> simp at htr

/-- The leaf deletion step updates only a high cell. -/
theorem delLeafH_spec {h0 : Heap} (hwf : heapWF h0 = true)
    {h : Heap} {current : Node} {leaf : Token} {mo rl : Bool}
    {h2 : Heap} {start : Nat}
    (he : HExt h0 h) (hh : HighClosed h0.next h)
    (hcur : nodeGE h0.next current)
    (hdel : delLeafH h current leaf mo rl = .ok (some (h2, start))) :
    HExt h0 h2 ∧ HighClosed h0.next h2 ∧ h0.next ≤ start := by
  cases leaf with
  | key k =>
    cases current with
    | leaf s =>
      simp only [delLeafH] at hdel
      split at hdel <;> simp at hdel
    | ref a =>
      have ha : h0.next ≤ a := hcur a rfl
      simp only [delLeafH] at hdel
      cases hf : findCell h a with
      | none =>
        rw [hf] at hdel
        dsimp only at hdel
        split at hdel <;> simp at hdel
      | some c =>
        rw [hf] at hdel
        cases c with
        | cseq l =>
          dsimp only at hdel
          split at hdel <;> simp at hdel
        | cmap m =>
          dsimp only at hdel
          have hnodes := HighClosed.find hh ha hf
          split at hdel
          · obtain ⟨hhh, hs⟩ := Prod.mk.injEq .. ▸
              Option.some.inj (Except.ok.inj hdel)
            subst hhh
            subst hs
            refine ⟨HExt.updateCellHigh he hwf ha _, ?_, ha⟩
            exact HighClosed.updateCellNodes hh (by
              intro n hn
              simp only [cellNodes] at hn
              exact hnodes n (by simpa [cellNodes] using nmapErase_nodes n hn))
          · split at hdel <;> simp at hdel
  | idx i =>
    cases current with
    | leaf s =>
      simp only [delLeafH] at hdel
      split at hdel <;> simp at hdel
    | ref a =>
      have ha : h0.next ≤ a := hcur a rfl
      simp only [delLeafH] at hdel
      cases hf : findCell h a with
      | none =>
        rw [hf] at hdel
        dsimp only at hdel
        split at hdel <;> simp at hdel
      | some c =>
        rw [hf] at hdel
        cases c with
        | cmap m =>
          dsimp only at hdel
          split at hdel <;> simp at hdel
        | cseq l =>
          dsimp only at hdel
          have hnodes : ∀ n ∈ l, nodeGE h0.next n := by
            intro n hn
            exact HighClosed.find hh ha hf n (by simpa [cellNodes] using hn)
          split at hdel
          · obtain ⟨hhh, hs⟩ := Prod.mk.injEq .. ▸
              Option.some.inj (Except.ok.inj hdel)
            subst hhh
            subst hs
            refine ⟨HExt.updateCellHigh he hwf ha _, ?_, ha⟩
            refine HighClosed.updateCellNodes hh ?_
            intro n hn
            simp only [cellNodes] at hn
            split at hn
            · exact hnodes n (List.mem_of_mem_eraseIdx hn)
            · rcases List.mem_or_eq_of_mem_set hn with h3 | h3
              · exact hnodes n h3
              · rw [h3]
                intro r hr
                exact absurd hr (by simp)
          · split at hdel <;> simp at hdel

/-- `_delete_in_parent` updates only a high cell. -/
theorem delInParentH_spec {h0 : Heap} (hwf : heapWF h0 = true)
    {h : Heap} {pa : Nat} {tok : Token} {rl : Bool}
    (he : HExt h0 h) (hh : HighClosed h0.next h) (hpa : h0.next ≤ pa) :
    HExt h0 (delInParentH h pa tok rl) ∧
      HighClosed h0.next (delInParentH h pa tok rl) := by
  rw [delInParentH.eq_def]
  cases hf : findCell h pa with
  | none =>
    cases tok <;> exact ⟨he, hh⟩
  | some c =>
    have hnodes := HighClosed.find hh hpa hf
    cases c with
    | cmap m =>
      cases tok with
      | idx i => exact ⟨he, hh⟩
      | key k =>
        dsimp only
        split
        · refine ⟨HExt.updateCellHigh he hwf hpa _, ?_⟩
          exact HighClosed.updateCellNodes hh (by
            intro n hn
            simp only [cellNodes] at hn
            exact hnodes n (by simpa [cellNodes] using nmapErase_nodes n hn))
        · exact ⟨he, hh⟩
    | cseq l =>
      cases tok with
      | key k => exact ⟨he, hh⟩
      | idx i =>
        dsimp only
        split
        · refine ⟨HExt.updateCellHigh he hwf hpa _, ?_⟩
          refine HighClosed.updateCellNodes hh ?_
          intro n hn
          simp only [cellNodes] at hn
          split at hn
          · exact hnodes n (by
              simpa [cellNodes] using List.mem_of_mem_eraseIdx hn)
          · rcases List.mem_or_eq_of_mem_set hn with h3 | h3
            · exact hnodes n (by simpa [cellNodes] using h3)
            · rw [h3]
              intro r hr
              exact absurd hr (by simp)
        · exact ⟨he, hh⟩

/-- The upward pruning loop updates only high cells. -/
theorem pruneH_spec {h0 : Heap} (hwf : heapWF h0 = true) :
    ∀ (revParents : List (Nat × Token)) (h : Heap) (child : Nat) (rl : Bool),
      HExt h0 h → HighClosed h0.next h →
      (∀ p ∈ revParents, h0.next ≤ p.1) →
      HExt h0 (pruneH h child revParents rl) ∧
        HighClosed h0.next (pruneH h child revParents rl) := by
  intro revParents
  induction revParents with
  | nil => intro h child rl he hh hps; exact ⟨he, hh⟩
  | cons p rest ih =>
    intro h child rl he hh hps
    obtain ⟨pa, tok⟩ := p
    simp only [pruneH]
    split
    · have hpa : h0.next ≤ pa := hps (pa, tok) (by simp)
      obtain ⟨he1, hh1⟩ := @delInParentH_spec h0 hwf h pa tok rl he hh hpa
      exact ih (delInParentH h pa tok rl) pa rl he1 hh1
        (fun p hp => hps p (by simp [hp]))
    · exact ⟨he, hh⟩

/-- `delete_by_json_path` over the heap updates only high cells. -/
theorem deleteH_spec {h0 : Heap} (hwf : heapWF h0 = true)
    {h : Heap} {root : Node} {path : String} {mo rl pe : Bool} {h2 : Heap}
    (he : HExt h0 h) (hh : HighClosed h0.next h)
    (hroot : nodeGE h0.next root)
    (hdel : deleteH h root path mo rl pe = .ok h2) :
    HExt h0 h2 ∧ HighClosed h0.next h2 := by
  rw [deleteH.eq_def] at hdel
  cases htok : tokenizeV path with
  | error err => rw [htok] at hdel; exact absurd hdel (by simp)
  | ok ts =>
    rw [htok] at hdel
    cases ts with
    | nil => exact absurd hdel (by simp)
    | cons t ts2 =>
      dsimp only at hdel
      cases htr : delTraverseH h root t ts2 [] mo with
      | error err => rw [htr] at hdel; exact absurd hdel (by simp)
      | ok oresult =>
        rw [htr] at hdel
        cases oresult with
        | none =>
          dsimp only at hdel
          rw [← Except.ok.inj hdel]
          exact ⟨he, hh⟩
        | some r =>
          obtain ⟨leafParent, leafTok, parents⟩ := r
          dsimp only at hdel
          obtain ⟨hlp, hpars⟩ :=
            delTraverseH_spec ts2 t h root [] mo
              (leafParent, leafTok, parents) hh hroot (by simp) htr
          cases hdl : delLeafH h leafParent leafTok mo rl with
          | error err => rw [hdl] at hdel; exact absurd hdel (by simp)
          | ok oresult2 =>
            rw [hdl] at hdel
            cases oresult2 with
            | none =>
              dsimp only at hdel
              rw [← Except.ok.inj hdel]
              exact ⟨he, hh⟩
            | some r2 =>
              obtain ⟨h3, start⟩ := r2
              dsimp only at hdel
              obtain ⟨he3, hh3, hst⟩ := delLeafH_spec hwf he hh hlp hdl
              rw [← Except.ok.inj hdel]
              split
              · exact pruneH_spec hwf parents.reverse h3 start rl he3 hh3
                  (by
                    intro p hp
                    exact hpars p (List.mem_reverse.mp hp))
              · exact ⟨he3, hh3⟩

/-- `setH` (parse + walk) updates only high cells. -/
theorem setH_spec {h0 : Heap} (hwf : heapWF h0 = true)
    {h : Heap} {root : Node} {path : String} {v : Value} {cm : Bool}
    {h2 : Heap} (he : HExt h0 h) (hh : HighClosed h0.next h)
    (hroot : nodeGE h0.next root) (hset : setH h root path v cm = .ok h2) :
    HExt h0 h2 ∧ HighClosed h0.next h2 := by
  rw [setH.eq_def] at hset
  cases htok : tokenizeV path with
  | error err => rw [htok] at hset; exact absurd hset (by simp)
  | ok ts =>
    rw [htok] at hset
    cases ts with
    | nil => exact absurd hset (by simp)
    | cons t ts2 =>
      exact setHGo_spec hwf ts2 t h root v cm h2 he hh hroot hset

/-- One patch iteration updates only high cells. -/
theorem patchHStep_spec {h0 : Heap} (hwf : heapWF h0 = true)
    {h : Heap} {out : Node} {op : Delta} {h2 : Heap}
    (he : HExt h0 h) (hh : HighClosed h0.next h)
    (hout : nodeGE h0.next out) (hstep : patchHStep h out op = .ok h2) :
    HExt h0 h2 ∧ HighClosed h0.next h2 := by
  rw [patchHStep.eq_def] at hstep
  split at hstep
  · exact deleteH_spec hwf he hh hout hstep
  · exact setH_spec hwf he hh hout hstep

/-- The patch loop updates only high cells. -/
theorem patchHGo_spec {h0 : Heap} (hwf : heapWF h0 = true) :
    ∀ (ops : List Delta) (h : Heap) (out : Node) (h2 : Heap),
      HExt h0 h → HighClosed h0.next h → nodeGE h0.next out →
      patchHGo h out ops = .ok h2 →
      HExt h0 h2 ∧ HighClosed h0.next h2 := by
  intro ops
  induction ops with
  | nil =>
    intro h out h2 he hh hout hgo
    simp only [patchHGo] at hgo
    rw [← Except.ok.inj hgo]
    exact ⟨he, hh⟩
  | cons op rest ih =>
    intro h out h2 he hh hout hgo
    simp only [patchHGo] at hgo
    cases hst : patchHStep h out op with
    | error err => rw [hst] at hgo; exact absurd hgo (by simp)
    | ok h3 =>
      rw [hst] at hgo
      obtain ⟨he3, hh3⟩ := patchHStep_spec hwf he hh hout hst
      exact ih h3 out h2 he3 hh3 hout hgo

/-! #### Reachability: the addresses a document handle can mutate -/

/-- `ReachA h n b`: starting from the node `n`, the address `b` is
reachable in the heap `h` (the set of objects aliased by the handle). -/
inductive ReachA (h : Heap) : Node → Nat → Prop where
  | here (a : Nat) : ReachA h (.ref a) a
  | step (a : Nat) (c : Cell) (n : Node) (b : Nat) :
      findCell h a = some c → n ∈ cellNodes c →
      ReachA h n b → ReachA h (.ref a) b

theorem findCell_mem {h : Heap} {a : Nat} {c : Cell}
    (hf : findCell h a = some c) : (a, c) ∈ h.cells := by
  simp only [findCell] at hf
  cases hfind : h.cells.find? (fun p => p.1 = a) with
  | none => rw [hfind] at hf; exact absurd hf (by simp)
  | some p =>
    rw [hfind] at hf
    have hpc : p.2 = c := Option.some.inj hf
    have hmem := List.mem_of_find?_eq_some hfind
    have hpa : p.1 = a := by
      have := List.find?_some hfind
      simpa using this
    rw [← hpa, ← hpc]
    exact hmem

/-- From a high root in a high-closed heap, only high addresses are
reachable. -/
theorem ReachA.high {N : Nat} {h : Heap} (hc : HighClosed N h) :
    ∀ {n : Node} {b : Nat}, ReachA h n b → nodeGE N n → N ≤ b := by
  intro n b hr
  induction hr with
  | here a => intro hge; exact hge a rfl
  | step a c n b hf hn hrec ih =>
    intro hge
    have ha : N ≤ a := hge a rfl
    exact ih (HighClosed.find hc ha hf n hn)

/-- From a low root, reachability in an extension stays in the old
low region: the base document reaches exactly what it reached before. -/
theorem ReachA.low {h0 h : Heap} (hwf : heapWF h0 = true)
    (he : HExt h0 h) :
    ∀ {n : Node} {b : Nat}, ReachA h n b →
      (∀ r, n = .ref r → r < h0.next) → b < h0.next := by
  intro n b hr
  induction hr with
  | here a => intro hlow; exact hlow a rfl
  | step a c n b hf hn hrec ih =>
    intro hlow
    have ha : a < h0.next := hlow a rfl
    rw [HExt.findCell_low he hwf ha] at hf
    have hmem := findCell_mem hf
    simp only [heapWF, List.all_eq_true] at hwf
    have hcell := hwf (a, c) hmem
    simp only [Bool.and_eq_true, List.all_eq_true] at hcell
    refine ih ?_
    intro r hnr
    have := hcell.2 n hn
    rw [hnr] at this
    simpa using this

/-- C9 — Patch never mutates its input: in the heap model of
`patch(base, operations)` (deep-copy of the base followed by the
destructive edits), for every well-formed initial heap and every base
handle into it, whenever the patch returns a result heap and an output
handle, (1) every pre-existing object is found unchanged in the result
heap, so the caller's `base` is structurally equal to its value before
the call; (2) the output handle reaches only objects allocated by the
call; and (3) the base handle still reaches only pre-existing objects —
hence the returned document shares no mutable state with `base`. -/
theorem patchDoesNotMutateBase {h0 : Heap} {base : Node}
    {ops : List Delta} {fuel : Nat} {hf : Heap} {out : Node}
    (hwf : heapWF h0 = true)
    (hbase : ∀ r, base = .ref r → r < h0.next)
    (hp : patchH h0 base ops fuel = some (.ok (hf, out))) :
    (∀ a, a < h0.next → findCell hf a = findCell h0 a) ∧
      (∀ b, ReachA hf out b → h0.next ≤ b) ∧
      (∀ b, ReachA hf base b → b < h0.next) := by
  rw [patchH.eq_def] at hp
  cases hcp : copyNode fuel h0 base with
  | none => rw [hcp] at hp; exact absurd hp (by simp)
  | some r =>
    obtain ⟨h1, out1⟩ := r
    rw [hcp] at hp
    dsimp only at hp
    obtain ⟨he1, hh1, hout1⟩ :=
      copyNode_spec fuel base h0 h1 out1 (HExt.refl h0)
        (heapWF_highClosed hwf) hcp
    cases hgo : patchHGo h1 out1 ops with
    | error err => rw [hgo] at hp; exact absurd hp (by simp)
    | ok h2 =>
      rw [hgo] at hp
      obtain ⟨hhf, hout⟩ := Prod.mk.injEq .. ▸
        Except.ok.inj (Option.some.inj hp)
      rw [hhf] at hgo
      obtain ⟨hef, hhf2⟩ := patchHGo_spec hwf ops h1 out1 hf he1 hh1 hout1 hgo
      refine ⟨?_, ?_, ?_⟩
      · intro a ha
        exact HExt.findCell_low hef hwf ha
      · intro b hr
        rw [← hout] at hr
        exact ReachA.high hhf2 hr hout1
      · intro b hr
        exact ReachA.low hwf hef hr hbase

/-- Witness for C9 at the base document `{}` (one heap cell) with an
empty edit list: the copy allocates cell 1, cell 0 is unchanged, the
output handle is cell 1 and the base handle cell 0. -/
theorem patchDoesNotMutateBase_witness :
    heapWF (⟨1, [(0, Cell.cmap [])]⟩ : Heap) = true ∧
      ((∀ a, a < (1 : Nat) →
          findCell (⟨2, [(1, Cell.cmap []), (0, Cell.cmap [])]⟩ : Heap) a =
            findCell (⟨1, [(0, Cell.cmap [])]⟩ : Heap) a) ∧
        (∀ b, ReachA (⟨2, [(1, Cell.cmap []), (0, Cell.cmap [])]⟩ : Heap)
            (Node.ref 1) b → (1 : Nat) ≤ b) ∧
        (∀ b, ReachA (⟨2, [(1, Cell.cmap []), (0, Cell.cmap [])]⟩ : Heap)
            (Node.ref 0) b → b < (1 : Nat))) :=
  ⟨by decide,
    @patchDoesNotMutateBase ⟨1, [(0, Cell.cmap [])]⟩ (Node.ref 0) [] 1
      ⟨2, [(1, Cell.cmap []), (0, Cell.cmap [])]⟩ (Node.ref 1)
      (by decide)
      (fun r hr => by rw [← Node.ref.inj hr]; decide)
      (by simp [patchH, copyNode, copyEntries, findCell, allocCell,
        patchHGo])⟩

end DiffSpec
